import Mathlib

/-!
The lazy singleton slot of `jo::git::common::Singleton`

A shallow embedding of `include/common/singleton.hpp` together with the test
payload `Instrumented<Foo>` of `tests/testutils/instrumented.hpp`.

The slot is a pair of static objects, the atomic `m_state` and the optional
`storage`.  Threads are modelled by program counters that name the shared-memory
accesses of `init`, `instance`, `initialized`, `trySetInitializing` and
`init_UNSAFE`; one step of one thread performs exactly one such access.  An
interleaving is a schedule, a list of thread indices; a scheduled thread that
is blocked or has finished makes no step.  Atomic accesses are sequentially
consistent in this model.
-/

namespace Singleton

/-- Lifecycle discriminator, `enum class State : uint8_t` (singleton.hpp:72). -/
inductive State where
  | Uninitialized
  | Initializing
  | Initialized
  deriving DecidableEq, Repr

/-- Payload of the tests, `struct Foo` with `int x = 0` (test_singleton.cpp:15). -/
structure Foo where
  x : Int
  deriving DecidableEq, Repr

/-- Wrapper `Instrumented<Foo, Tag>` holding `value_` (instrumented.hpp:64). -/
structure Instrumented where
  value_ : Foo
  deriving DecidableEq, Repr

/-- Static counters of `Instrumented<Foo, Tag>` (instrumented.hpp:9-15), each an
`std::atomic<unsigned int>`. -/
structure Counters where
  default_ctor : Nat
  value_ctor : Nat
  copy_ctor : Nat
  move_ctor : Nat
  copy_assign : Nat
  move_assign : Nat
  dtor : Nat
  deriving DecidableEq, Repr

/-- Counters after `reset_counts()` (instrumented.hpp:17). -/
def Counters.reset_counts : Counters :=
  { default_ctor := 0, value_ctor := 0, copy_ctor := 0, move_ctor := 0,
    copy_assign := 0, move_assign := 0, dtor := 0 }

/-- Argument packs `Args&&... args` accepted by `Instrumented<Foo>`: the empty
pack, selecting `Instrumented()`, and a single `int`, selecting the variadic
constructor that forwards to `Foo(int)`. -/
inductive Args where
  | empty
  | value (v : Int)
  deriving DecidableEq, Repr

/-- The object built by the constructor that `args` selects
(instrumented.hpp:21-30): `Foo()` leaves `x = 0`, `Foo(v)` sets `x = v`. -/
def Instrumented.construct : Args → Instrumented
  | .empty => { value_ := { x := 0 } }
  | .value v => { value_ := { x := v } }

/-- Increment of an `unsigned int` counter. -/
def incr (n : Nat) : Nat := (n + 1) % 4294967296

/-- Counter effect of the constructor that `args` selects: `++default_ctor`
(instrumented.hpp:23) or `++value_ctor` (instrumented.hpp:29). -/
def Counters.construct : Args → Counters → Counters
  | .empty, k => { k with default_ctor := incr k.default_ctor }
  | .value _, k => { k with value_ctor := incr k.value_ctor }

/-- Counter effect of `~Instrumented()` (instrumented.hpp:55). -/
def Counters.destroy (k : Counters) : Counters :=
  { k with dtor := incr k.dtor }

/-- The call `storage().emplace(args...)` of `std::optional`: a contained value
is destroyed first, then the payload is constructed in place. -/
def emplace (args : Args) (storage : Option Instrumented) (k : Counters) :
    Option Instrumented × Counters :=
  match storage with
  | none => (some (Instrumented.construct args), Counters.construct args k)
  | some _ => (some (Instrumented.construct args), Counters.construct args k.destroy)

/-- The two `std::logic_error`s thrown by the class: `AlreadyInitialized` is
"Singleton::init called more than once" (singleton.hpp:24), `NotInitialized` is
"Singleton not initialized, call Singleton::init(...)" (singleton.hpp:35). -/
inductive Error where
  | AlreadyInitialized
  | NotInitialized
  deriving DecidableEq, Repr

/-- Program points of a thread inside one call of the public interface.  Each
names the next access to the shared slot. -/
inductive Pc where
  /-- In `init(args)`, before `trySetInitializing()` (singleton.hpp:23). -/
  | init_cas (args : Args)
  /-- In `instance()`, before `m_state.load` (singleton.hpp:31). -/
  | instance_load
  /-- In `instance()`, before `trySetInitializing()` (singleton.hpp:37). -/
  | instance_cas
  /-- In `instance()`, at `m_state.wait(State::Initializing)` (singleton.hpp:43). -/
  | instance_wait
  /-- In `instance()`, before `return ref()` (singleton.hpp:47). -/
  | instance_ref
  /-- In `init_UNSAFE(args)`, before `storage().emplace` (singleton.hpp:83). -/
  | unsafe_emplace (args : Args)
  /-- In `init_UNSAFE`, before `m_state.store(Initialized)` (singleton.hpp:84). -/
  | unsafe_store
  /-- In `init_UNSAFE`, before `m_state.notify_all()` (singleton.hpp:85). -/
  | unsafe_notify
  /-- In `init_UNSAFE`, before `return ref()` (singleton.hpp:86). -/
  | unsafe_ref
  /-- In `initialized()`, before `m_state.load` (singleton.hpp:53). -/
  | initialized_load
  /-- The call returned a reference to the stored payload, whose content at
  the moment of return is `p`. -/
  | returned (p : Instrumented)
  /-- The call `initialized()` returned `b`. -/
  | returned_bool (b : Bool)
  /-- The call threw. -/
  | threw (e : Error)
  /-- The call dereferenced an empty `std::optional` in `ref()`. -/
  | undefined
  deriving DecidableEq, Repr

/-- Shared-memory accesses, the labels of steps. -/
inductive Event where
  | load (s : State)
  | cas (won : Bool)
  | emplace (args : Args)
  | store
  | notify
  | wake
  | deref
  deriving DecidableEq, Repr

/-- The static members of one `Singleton<Instrumented<Foo>, DefaultOnInstance>`
(`m_state`, `storage`), the counters of its payload type, and the threads
working on it. -/
structure Config where
  m_state : State
  storage : Option Instrumented
  counts : Counters
  threads : List Pc
  deriving DecidableEq, Repr

/-- The compare-exchange of `trySetInitializing` (singleton.hpp:76-80) on the
value of `m_state`: the result and the new value. -/
def trySetInitializing (s : State) : Bool × State :=
  if s = State.Uninitialized then (true, State.Initializing) else (false, s)

/-- The dereference `*storage()` of `ref()` (singleton.hpp:70). -/
def ref (storage : Option Instrumented) : Pc :=
  match storage with
  | some p => Pc.returned p
  | none => Pc.undefined

/-- Thread `t` moves to program point `pc`. -/
def Config.goto (c : Config) (t : Nat) (pc : Pc) : Config :=
  { c with threads := c.threads.set t pc }

/-- One step of thread `t`: the access it performs and the configuration after
it; `none` when there is no such thread, when its call is over, or when it is
blocked in `m_state.wait`. -/
def step (DefaultOnInstance : Bool) (c : Config) (t : Nat) : Option (Event × Config) :=
  match c.threads[t]? with
  | none => none
  | some (Pc.init_cas args) =>
    match trySetInitializing c.m_state with
    | (true, s) =>
      some (Event.cas true, { c with m_state := s }.goto t (Pc.unsafe_emplace args))
    | (false, s) =>
      some (Event.cas false, { c with m_state := s }.goto t (Pc.threw Error.AlreadyInitialized))
  | some Pc.instance_load =>
    match c.m_state with
    | State.Uninitialized =>
      if DefaultOnInstance then
        some (Event.load State.Uninitialized, c.goto t Pc.instance_cas)
      else
        some (Event.load State.Uninitialized, c.goto t (Pc.threw Error.NotInitialized))
    | State.Initializing => some (Event.load State.Initializing, c.goto t Pc.instance_wait)
    | State.Initialized => some (Event.load State.Initialized, c.goto t Pc.instance_ref)
  | some Pc.instance_cas =>
    match trySetInitializing c.m_state with
    | (true, s) =>
      some (Event.cas true, { c with m_state := s }.goto t (Pc.unsafe_emplace Args.empty))
    | (false, s) =>
      some (Event.cas false, { c with m_state := s }.goto t Pc.instance_wait)
  | some Pc.instance_wait =>
    if c.m_state = State.Initializing then none
    else some (Event.wake, c.goto t Pc.instance_ref)
  | some Pc.instance_ref => some (Event.deref, c.goto t (ref c.storage))
  | some (Pc.unsafe_emplace args) =>
    some (Event.emplace args,
      { c with storage := (emplace args c.storage c.counts).1,
               counts := (emplace args c.storage c.counts).2 }.goto t Pc.unsafe_store)
  | some Pc.unsafe_store =>
    some (Event.store, { c with m_state := State.Initialized }.goto t Pc.unsafe_notify)
  | some Pc.unsafe_notify => some (Event.notify, c.goto t Pc.unsafe_ref)
  | some Pc.unsafe_ref => some (Event.deref, c.goto t (ref c.storage))
  | some Pc.initialized_load =>
    some (Event.load c.m_state,
      c.goto t (Pc.returned_bool (decide (c.m_state = State.Initialized))))
  | some (Pc.returned _) => none
  | some (Pc.returned_bool _) => none
  | some (Pc.threw _) => none
  | some Pc.undefined => none

/-- A configuration together with the accesses made so far, each with the
thread that made it. -/
abbrev Run := Config × List (Nat × Event)

/-- Schedule thread `t` once: its step is taken and logged when it has one. -/
def exec (DefaultOnInstance : Bool) (r : Run) (t : Nat) : Run :=
  match step DefaultOnInstance r.1 t with
  | none => r
  | some (e, c) => (c, r.2 ++ [(t, e)])

/-- Follow a schedule from a run. -/
def runFrom (DefaultOnInstance : Bool) (r : Run) (sched : List Nat) : Run :=
  sched.foldl (exec DefaultOnInstance) r

/-- Follow a schedule from configuration `c` with an empty log. -/
def run (DefaultOnInstance : Bool) (c : Config) (sched : List Nat) : Run :=
  runFrom DefaultOnInstance (c, []) sched

/-- Entry points of the public interface: a thread about to execute
`init(args)`, `instance()` or `initialized()`. -/
def Pc.isEntry : Pc → Bool
  | Pc.init_cas _ => true
  | Pc.instance_load => true
  | Pc.initialized_load => true
  | _ => false

/-- A fresh slot: `m_state` is `Uninitialized`, `storage` is empty, and every
thread is at the entry of a call. -/
def Fresh (c : Config) : Prop :=
  c.m_state = State.Uninitialized ∧ c.storage = none ∧ ∀ pc ∈ c.threads, pc.isEntry = true

/-- Number of successful compare-exchanges in a log. -/
def casWins (log : List (Nat × Event)) : Nat :=
  log.countP (fun e => decide (e.2 = Event.cas true))

/-- Number of payload constructions (`emplace`) in a log. -/
def constructions (log : List (Nat × Event)) : Nat :=
  log.countP (fun e => match e.2 with | Event.emplace _ => true | _ => false)

/-- Program points possible while `m_state` is `Uninitialized`. -/
def Pc.early : Pc → Bool
  | Pc.init_cas _ => true
  | Pc.instance_load => true
  | Pc.instance_cas => true
  | Pc.initialized_load => true
  | Pc.returned_bool b => !b
  | Pc.threw e => decide (e = Error.NotInitialized)
  | _ => false

/-- Program points of the threads that did not win, while `m_state` is `Initializing`. -/
def Pc.pending : Pc → Bool
  | Pc.init_cas _ => true
  | Pc.instance_load => true
  | Pc.instance_cas => true
  | Pc.instance_wait => true
  | Pc.initialized_load => true
  | Pc.returned_bool b => !b
  | Pc.threw _ => true
  | _ => false

/-- Program points possible once `m_state` is `Initialized` with payload `p` stored. -/
def Pc.settled (p : Instrumented) : Pc → Bool
  | Pc.unsafe_emplace _ => false
  | Pc.unsafe_store => false
  | Pc.undefined => false
  | Pc.returned q => decide (q = p)
  | _ => true

/-- The call thread `w` entered with in `c0` constructs from `a`. -/
def Origin (c0 : Config) (w : Nat) (a : Args) : Prop :=
  c0.threads[w]? = some (Pc.init_cas a) ∨ (c0.threads[w]? = some Pc.instance_load ∧ a = Args.empty)

/-- What holds of every run from a fresh configuration `c0`; `w` is the thread
whose compare-exchange succeeded and `a` the arguments it constructs from. -/
def Inv (c0 : Config) (w : Nat) (a : Args) (r : Run) : Prop :=
  match r.1.m_state with
  | State.Uninitialized =>
    r.1.storage = none ∧ r.1.counts = c0.counts ∧ casWins r.2 = 0 ∧ constructions r.2 = 0 ∧
    ∀ (j : Nat) (pc : Pc), r.1.threads[j]? = some pc →
      pc.early = true ∧ (pc.isEntry = true → c0.threads[j]? = some pc) ∧
      (pc = Pc.instance_cas → c0.threads[j]? = some Pc.instance_load)
  | State.Initializing =>
    casWins r.2 = 1 ∧ (∀ j, (j, Event.cas true) ∈ r.2 → j = w) ∧ Origin c0 w a ∧
    ((r.1.threads[w]? = some (Pc.unsafe_emplace a) ∧ r.1.storage = none ∧
        r.1.counts = c0.counts ∧ constructions r.2 = 0) ∨
     (r.1.threads[w]? = some Pc.unsafe_store ∧ r.1.storage = some (Instrumented.construct a) ∧
        r.1.counts = Counters.construct a c0.counts ∧ constructions r.2 = 1)) ∧
    ∀ (j : Nat) (pc : Pc), j ≠ w → r.1.threads[j]? = some pc → pc.pending = true
  | State.Initialized =>
    casWins r.2 = 1 ∧ (∀ j, (j, Event.cas true) ∈ r.2 → j = w) ∧ Origin c0 w a ∧
    constructions r.2 = 1 ∧ (w, Event.store) ∈ r.2 ∧
    r.1.storage = some (Instrumented.construct a) ∧
    r.1.counts = Counters.construct a c0.counts ∧
    ∀ (j : Nat) (pc : Pc), r.1.threads[j]? = some pc → pc.settled (Instrumented.construct a) = true

/-- A slot before any call, with counters reset, and the given threads. -/
def freshSlot (ths : List Pc) : Config :=
  { m_state := State.Uninitialized, storage := none, counts := Counters.reset_counts,
    threads := ths }

/-- How far a call of `instance()` on an initialized slot has come: before its
load, before its dereference, or over. -/
def Pc.readRank : Pc → Nat
  | Pc.instance_load => 0
  | Pc.instance_ref => 1
  | _ => 2

/-- A thread reading an initialized slot that holds `p`. -/
def Pc.reads (p : Instrumented) (pc : Pc) : Prop :=
  pc = Pc.instance_load ∨ pc = Pc.instance_ref ∨ pc = Pc.returned p

/-- Program points at which a thread that entered `instance()` and loaded `s`
from `m_state` can stand, under the policy `doi`. -/
def Pc.afterLoad (doi : Bool) (s : State) : Pc → Bool
  | Pc.threw e => decide (s = State.Uninitialized) && !doi && decide (e = Error.NotInitialized)
  | Pc.instance_cas => decide (s = State.Uninitialized) && doi
  | Pc.unsafe_emplace a => decide (s = State.Uninitialized) && doi && decide (a = Args.empty)
  | Pc.unsafe_store => decide (s = State.Uninitialized) && doi
  | Pc.unsafe_notify => decide (s = State.Uninitialized) && doi
  | Pc.unsafe_ref => decide (s = State.Uninitialized) && doi
  | Pc.instance_wait => (decide (s = State.Uninitialized) && doi) || decide (s = State.Initializing)
  | Pc.instance_ref => doi || decide (s ≠ State.Uninitialized)
  | Pc.returned _ => doi || decide (s ≠ State.Uninitialized)
  | Pc.undefined => doi || decide (s ≠ State.Uninitialized)
  | _ => false

/-- The log and the program point of a thread `t` that entered `instance()`
agree: either it has not made its load and has no entry in the log, or the
log holds its one load, of `s`, and it stands where a load of `s` leads. -/
def InstTrail (doi : Bool) (t : Nat) (log : List (Nat × Event)) (pc : Pc) : Prop :=
  (pc = Pc.instance_load ∧ ∀ e, (t, e) ∉ log) ∨
  ∃ s, (t, Event.load s) ∈ log ∧ (∀ s1, (t, Event.load s1) ∈ log → s1 = s) ∧
    pc.afterLoad doi s = true

/-- A slot before any call on which `n` threads are about to call `instance()`. -/
def autoSlot (n : Nat) (k : Counters) : Config :=
  { m_state := State.Uninitialized, storage := none, counts := k,
    threads := List.replicate n Pc.instance_load }

/-- Position of a state in the lifecycle order, the value of its enumerator
in `enum class State : uint8_t` (singleton.hpp:72). -/
def State.toNat : State → Nat
  | State.Uninitialized => 0
  | State.Initializing => 1
  | State.Initialized => 2

/-- Program points of a thread inside `init_UNSAFE(a)`, or past it. -/
def Pc.wonPath (a : Args) : Pc → Bool
  | Pc.unsafe_emplace x => decide (x = a)
  | Pc.unsafe_store => true
  | Pc.unsafe_notify => true
  | Pc.unsafe_ref => true
  | Pc.returned _ => true
  | Pc.undefined => true
  | _ => false

/-- The log and the program point of a thread `t` that entered `init(a)` agree:
it has not made its compare-exchange and has no entry in the log, or it won and
is in `init_UNSAFE(a)` or past it, or it lost and threw `AlreadyInitialized`. -/
def InitTrail (a : Args) (t : Nat) (log : List (Nat × Event)) (pc : Pc) : Prop :=
  (pc = Pc.init_cas a ∧ ∀ e, (t, e) ∉ log) ∨
  ((t, Event.cas true) ∈ log ∧ pc.wonPath a = true) ∨
  ((t, Event.cas true) ∉ log ∧ (t, Event.cas false) ∈ log ∧
    pc = Pc.threw Error.AlreadyInitialized)

/-- Program points of a call of `instance()` under the explicit policy. -/
def Pc.explicitRead : Pc → Bool
  | Pc.instance_load => true
  | Pc.instance_wait => true
  | Pc.instance_ref => true
  | Pc.returned _ => true
  | Pc.undefined => true
  | Pc.threw e => decide (e = Error.NotInitialized)
  | _ => false

/-- A thread `t` that entered `instance()` under the explicit policy makes no
compare-exchange. -/
def ExplicitTrail (t : Nat) (log : List (Nat × Event)) (pc : Pc) : Prop :=
  (∀ b, (t, Event.cas b) ∉ log) ∧ pc.explicitRead = true

/-- A call is over: it returned or threw. -/
def Pc.over : Pc → Bool
  | Pc.returned _ => true
  | Pc.returned_bool _ => true
  | Pc.threw _ => true
  | Pc.undefined => true
  | _ => false

/-- A slot before any call on which thread 0 is about to call `init(a)`,
thread 1 `init(b)`, and `n` more threads `instance()`. -/
def initRaceSlot (a b : Args) (n : Nat) (k : Counters) : Config :=
  { m_state := State.Uninitialized, storage := none, counts := k,
    threads := Pc.init_cas a :: Pc.init_cas b :: List.replicate n Pc.instance_load }

/-- A slot before any call on which thread 0 is about to call `init(v)` and
threads `1..m` are about to call `instance()`. -/
def initInstanceSlot (v : Int) (m : Nat) (k : Counters) : Config :=
  { m_state := State.Uninitialized, storage := none, counts := k,
    threads := Pc.init_cas (Args.value v) :: List.replicate m Pc.instance_load }

/-- A declared subtype `struct name : Singleton<Instrumented<Foo, Tag>,
DefaultOnInstance> {}`: its name, the tag of its payload type and its policy. -/
structure Subtype where
  name : Nat
  tag : Nat
  policy : Bool
  deriving DecidableEq, Repr

/-- The class template specialization `Singleton<Instrumented<Foo, Tag>,
DefaultOnInstance>` a subtype derives from.  The static members `m_state`
(singleton.hpp:74) and `storage` (singleton.hpp:61) are members of the
specialization, which the subtype inherits. -/
def Subtype.base (s : Subtype) : Nat × Bool := (s.tag, s.policy)

/-- All slots of a process: one `m_state` and one `storage` for each
specialization, one set of counters for each payload type
`Instrumented<Foo, Tag>`, and the threads, each inside a call made through a
subtype. -/
structure Program where
  m_state : Nat × Bool → State
  storage : Nat × Bool → Option Instrumented
  counts : Nat → Counters
  threads : List (Subtype × Pc)

/-- The slot a call made through subtype `s` works on, with the one thread
making it. -/
def Program.view (p : Program) (s : Subtype) (pc : Pc) : Config :=
  { m_state := p.m_state s.base, storage := p.storage s.base, counts := p.counts s.tag,
    threads := [pc] }

/-- One step of thread `t` of a program: a step of `step` on the slot of the
subtype the thread calls through, written back. -/
def Program.step (p : Program) (t : Nat) : Option (Event × Program) :=
  match p.threads[t]? with
  | none => none
  | some (s, pc) =>
    match Singleton.step s.policy (p.view s pc) 0 with
    | none => none
    | some (e, c) =>
      some (e,
        { m_state := Function.update p.m_state s.base c.m_state,
          storage := Function.update p.storage s.base c.storage,
          counts := Function.update p.counts s.tag c.counts,
          threads := p.threads.set t (s, c.threads.headD pc) })

/-- Follow a schedule in a program; a scheduled thread without a step is skipped. -/
def Program.run (p : Program) (sched : List Nat) : Program :=
  sched.foldl (fun q t => match q.step t with | none => q | some (_, q1) => q1) p

/-- A process before any call, with counters reset. -/
def Program.fresh (ths : List (Subtype × Pc)) : Program :=
  { m_state := fun _ => State.Uninitialized, storage := fun _ => none,
    counts := fun _ => Counters.reset_counts, threads := ths }

/-- A slot on which the payload constructor, run by `emplace` in
`init_UNSAFE(a)` of thread `w`, has called `instance()` on the same slot:
`frame` is `some (w, a)`, in `config` thread `w` stands in the nested call, and
its frame resumes at `emplace` when the nested call has returned.  With
`frame = none` there is no nested call. -/
structure Reentrant where
  config : Config
  frame : Option (Nat × Args)
  deriving DecidableEq, Repr

/-- The constructor run by `emplace` of thread `t` calls `instance()`. -/
def Reentrant.enter (c : Config) (t : Nat) : Option Reentrant :=
  match c.threads[t]? with
  | some (Pc.unsafe_emplace a) => some ⟨c.goto t Pc.instance_load, some (t, a)⟩
  | _ => none

/-- One step of thread `t`: a step of its current call, or, when the nested
call of the thread has returned, the return into its constructor. -/
def Reentrant.step (doi : Bool) (x : Reentrant) (t : Nat) : Option Reentrant :=
  match Singleton.step doi x.config t with
  | some (_, c) => some ⟨c, x.frame⟩
  | none =>
    match x.frame, x.config.threads[t]? with
    | some (w, a), some (Pc.returned _) =>
      if w = t then some ⟨x.config.goto t (Pc.unsafe_emplace a), none⟩ else none
    | _, _ => none

/-- Follow a schedule; a scheduled thread without a step is skipped. -/
def Reentrant.run (doi : Bool) (x : Reentrant) (sched : List Nat) : Reentrant :=
  sched.foldl (fun y t => match y.step doi t with | none => y | some y1 => y1) x

/-- The nested call has come to the wait, or has not made its load, other
threads stand where losers of the compare-exchange stand, and `m_state` is
`Initializing`. -/
def Reentrant.Stuck (st : Option Instrumented) (w : Nat) (a : Args) (x : Reentrant) : Prop :=
  x.frame = some (w, a) ∧ x.config.m_state = State.Initializing ∧ x.config.storage = st ∧
  (∀ (j : Nat) (pc : Pc), x.config.threads[j]? = some pc → pc.pending = true) ∧
  (x.config.threads[w]? = some Pc.instance_load ∨ x.config.threads[w]? = some Pc.instance_wait)

/-! ## Invariants of runs -/

theorem getElem?_set_all {l : List Pc} {t : Nat} {x : Pc} {Q : Nat → Pc → Prop}
    (h : ∀ j pc, l[j]? = some pc → Q j pc) (hx : Q t x) :
    ∀ j pc, (l.set t x)[j]? = some pc → Q j pc := by
  intro j pc hj
  rw [List.getElem?_set] at hj
  split at hj
  · split at hj
    · cases hj; subst_vars; exact hx
    · cases hj
  · exact h j pc hj

theorem casWins_snoc (log : List (Nat × Event)) (t : Nat) (e : Event) :
    casWins (log ++ [(t, e)]) = casWins log + (if e = Event.cas true then 1 else 0) := by
  simp [casWins, List.countP_append, List.countP_cons]

theorem constructions_snoc (log : List (Nat × Event)) (t : Nat) (e : Event) :
    constructions (log ++ [(t, e)]) =
      constructions log + (match e with | Event.emplace _ => 1 | _ => 0) := by
  cases e <;> simp [constructions, List.countP_append, List.countP_cons]

theorem Fresh.inv {c0 : Config} (h : Fresh c0) (w : Nat) (a : Args) : Inv c0 w a (c0, []) := by
  obtain ⟨h1, h2, h3⟩ := h
  unfold Inv
  simp only [h1]
  refine ⟨h2, by trivial, by rfl, by rfl, ?_⟩
  intro j pc hj
  have hm : pc ∈ c0.threads := List.getElem?_mem hj
  have := h3 pc hm
  refine ⟨?_, fun _ => hj, ?_⟩
  · cases pc <;> simp_all [Pc.isEntry, Pc.early]
  · rintro rfl
    simp [Pc.isEntry] at this

theorem Pc.pending_of_early {pc : Pc} (h : pc.early = true) : pc.pending = true := by
  cases pc <;> simp_all [Pc.early, Pc.pending]

theorem Pc.settled_of_pending {pc : Pc} (p : Instrumented) (h : pc.pending = true) :
    pc.settled p = true := by
  cases pc <;> simp_all [Pc.settled, Pc.pending]

theorem getElem?_set_self_of {l : List Pc} {t : Nat} {pc : Pc} (x : Pc) (h : l[t]? = some pc) :
    (l.set t x)[t]? = some x := by
  have hlt : t < l.length := by
    by_contra hge
    rw [List.getElem?_eq_none (by omega)] at h
    cases h
  simp [List.getElem?_set, hlt]

theorem getElem?_set_of_ne {l : List Pc} {t j : Nat} (x : Pc) (h : j ≠ t) :
    (l.set t x)[j]? = l[j]? := by
  simp [List.getElem?_set, Ne.symm h]

theorem not_mem_of_casWins_zero {log : List (Nat × Event)} (h : casWins log = 0) (j : Nat) :
    (j, Event.cas true) ∉ log := by
  intro hm
  have := (List.countP_eq_zero.1 h) _ hm
  simp at this

theorem Inv.uninit_iff {c0 : Config} {w : Nat} {a : Args} {st : Option Instrumented}
    {k : Counters} {ths : List Pc} {log : List (Nat × Event)} :
    Inv c0 w a ((⟨State.Uninitialized, st, k, ths⟩ : Config), log) ↔
      (st = none ∧ k = c0.counts ∧ casWins log = 0 ∧ constructions log = 0 ∧
        ∀ (j : Nat) (pc : Pc), ths[j]? = some pc →
          pc.early = true ∧ (pc.isEntry = true → c0.threads[j]? = some pc) ∧
          (pc = Pc.instance_cas → c0.threads[j]? = some Pc.instance_load)) := Iff.rfl

theorem Inv.initializing_iff {c0 : Config} {w : Nat} {a : Args} {st : Option Instrumented}
    {k : Counters} {ths : List Pc} {log : List (Nat × Event)} :
    Inv c0 w a ((⟨State.Initializing, st, k, ths⟩ : Config), log) ↔
      (casWins log = 1 ∧ (∀ j, (j, Event.cas true) ∈ log → j = w) ∧ Origin c0 w a ∧
        ((ths[w]? = some (Pc.unsafe_emplace a) ∧ st = none ∧
            k = c0.counts ∧ constructions log = 0) ∨
         (ths[w]? = some Pc.unsafe_store ∧ st = some (Instrumented.construct a) ∧
            k = Counters.construct a c0.counts ∧ constructions log = 1)) ∧
        ∀ (j : Nat) (pc : Pc), j ≠ w → ths[j]? = some pc → pc.pending = true) := Iff.rfl

theorem Inv.initialized_iff {c0 : Config} {w : Nat} {a : Args} {st : Option Instrumented}
    {k : Counters} {ths : List Pc} {log : List (Nat × Event)} :
    Inv c0 w a ((⟨State.Initialized, st, k, ths⟩ : Config), log) ↔
      (casWins log = 1 ∧ (∀ j, (j, Event.cas true) ∈ log → j = w) ∧ Origin c0 w a ∧
        constructions log = 1 ∧ (w, Event.store) ∈ log ∧
        st = some (Instrumented.construct a) ∧
        k = Counters.construct a c0.counts ∧
        ∀ (j : Nat) (pc : Pc), ths[j]? = some pc →
          pc.settled (Instrumented.construct a) = true) := Iff.rfl

theorem exec_of_step {doi : Bool} {c c1 : Config} {log : List (Nat × Event)} {t : Nat}
    {e : Event} (h : step doi c t = some (e, c1)) :
    exec doi (c, log) t = (c1, log ++ [(t, e)]) := by
  simp [exec, h]

theorem exec_of_step_none {doi : Bool} {r : Run} {t : Nat}
    (h : step doi r.1 t = none) : exec doi r t = r := by
  simp [exec, h]

theorem Inv.exec_uninit {c0 : Config} {w : Nat} {a : Args} {r : Run} (doi : Bool) (t : Nat)
    (h : Inv c0 w a r) (hs : r.1.m_state = State.Uninitialized) :
    ∃ w1 a1, Inv c0 w1 a1 (exec doi r t) := by
  obtain ⟨⟨s, st, k, ths⟩, log⟩ := r
  simp only at hs
  subst hs
  obtain ⟨h1, h2, h3, h4, h5⟩ := Inv.uninit_iff.1 h
  subst h1
  cases hpc : ths[t]? with
  | none =>
    refine ⟨w, a, ?_⟩
    rw [exec_of_step_none (by simp [step, hpc])]
    exact h
  | some pc =>
    obtain ⟨e1, e2, e3⟩ := h5 t pc hpc
    have hwin : ∀ (args : Args), Origin c0 t args →
        Inv c0 t args ((⟨State.Initializing, none, k, ths.set t (Pc.unsafe_emplace args)⟩ : Config),
          log ++ [(t, Event.cas true)]) := by
      intro args ho
      refine Inv.initializing_iff.2 ⟨by simp [casWins_snoc, h3], ?_, ho,
        Or.inl ⟨getElem?_set_self_of _ hpc, rfl, h2, by simp [constructions_snoc, h4]⟩, ?_⟩
      · intro j hj
        simp at hj
        rcases hj with hj | hj
        · exact absurd hj (not_mem_of_casWins_zero h3 j)
        · exact hj
      · intro j pc hj hjs
        rw [getElem?_set_of_ne _ hj] at hjs
        exact Pc.pending_of_early (h5 j pc hjs).1
    have hstay : ∀ (e : Event) (pc1 : Pc), e ≠ Event.cas true → (∀ x, e ≠ Event.emplace x) →
        pc1.early = true → pc1.isEntry = false →
        (pc1 = Pc.instance_cas → c0.threads[t]? = some Pc.instance_load) →
        Inv c0 w a ((⟨State.Uninitialized, none, k, ths.set t pc1⟩ : Config), log ++ [(t, e)]) := by
      intro e pc1 he1 he2 hp1 hp2 hp3
      refine Inv.uninit_iff.2 ⟨rfl, h2, by simp [casWins_snoc, h3, he1], ?_, ?_⟩
      · rw [constructions_snoc, h4]
        cases e <;> simp_all
      · refine getElem?_set_all h5 ⟨hp1, ?_, hp3⟩
        simp [hp2]
    cases pc with
    | init_cas args =>
      refine ⟨t, args, ?_⟩
      rw [exec_of_step (by simp [step, hpc, trySetInitializing, Config.goto]; exact ⟨rfl, rfl⟩)]
      exact hwin args (Or.inl (e2 rfl))
    | instance_load =>
      cases doi
      · refine ⟨w, a, ?_⟩
        rw [exec_of_step (by simp [step, hpc, Config.goto]; exact ⟨rfl, rfl⟩)]
        exact hstay _ _ (by simp) (by simp) rfl rfl (by simp)
      · refine ⟨w, a, ?_⟩
        rw [exec_of_step (by simp [step, hpc, Config.goto]; exact ⟨rfl, rfl⟩)]
        exact hstay _ _ (by simp) (by simp) rfl rfl (fun _ => e2 rfl)
    | instance_cas =>
      refine ⟨t, Args.empty, ?_⟩
      rw [exec_of_step (by simp [step, hpc, trySetInitializing, Config.goto]; exact ⟨rfl, rfl⟩)]
      exact hwin Args.empty (Or.inr ⟨e3 rfl, rfl⟩)
    | initialized_load =>
      refine ⟨w, a, ?_⟩
      rw [exec_of_step (by simp [step, hpc, Config.goto]; exact ⟨rfl, rfl⟩)]
      exact hstay _ _ (by simp) (by simp) rfl rfl (by simp)
    | returned_bool b =>
      refine ⟨w, a, ?_⟩
      rw [exec_of_step_none (by simp [step, hpc])]
      exact h
    | threw e =>
      refine ⟨w, a, ?_⟩
      rw [exec_of_step_none (by simp [step, hpc])]
      exact h
    | _ => simp [Pc.early] at e1

theorem Inv.exec_initializing {c0 : Config} {w : Nat} {a : Args} {r : Run} (doi : Bool) (t : Nat)
    (h : Inv c0 w a r) (hs : r.1.m_state = State.Initializing) :
    Inv c0 w a (exec doi r t) ∧ (exec doi r t).1.m_state ≠ State.Uninitialized := by
  obtain ⟨⟨s, st, k, ths⟩, log⟩ := r
  simp only at hs
  subst hs
  obtain ⟨h1, h2, h3, h4, h5⟩ := Inv.initializing_iff.1 h
  have hsame : step doi ⟨State.Initializing, st, k, ths⟩ t = none →
      Inv c0 w a (exec doi (⟨State.Initializing, st, k, ths⟩, log) t) ∧
      (exec doi (⟨State.Initializing, st, k, ths⟩, log) t).1.m_state ≠ State.Uninitialized := by
    intro hn
    rw [exec_of_step_none hn]
    exact ⟨h, by simp⟩
  cases hpc : ths[t]? with
  | none => exact hsame (by simp [step, hpc])
  | some pc =>
    by_cases htw : t = w
    · subst htw
      rcases h4 with ⟨g1, g2, g3, g4⟩ | ⟨g1, g2, g3, g4⟩
      · rw [hpc] at g1
        cases g1
        subst g2
        rw [exec_of_step (by simp [step, hpc, emplace, Config.goto]; exact ⟨rfl, rfl⟩)]
        refine ⟨Inv.initializing_iff.2 ⟨by simp [casWins_snoc, h1], ?_, h3,
          Or.inr ⟨getElem?_set_self_of _ hpc, rfl, by rw [g3],
            by simp [constructions_snoc, g4]⟩, ?_⟩, by simp⟩
        · intro j hj
          simp at hj
          exact h2 j hj
        · intro j pc hj hjs
          rw [getElem?_set_of_ne _ hj] at hjs
          exact h5 j pc hj hjs
      · rw [hpc] at g1
        cases g1
        rw [exec_of_step (by simp [step, hpc, Config.goto]; exact ⟨rfl, rfl⟩)]
        refine ⟨Inv.initialized_iff.2 ⟨by simp [casWins_snoc, h1], ?_, h3,
          by simp [constructions_snoc, g4], by simp, g2, g3, ?_⟩, by simp⟩
        · intro j hj
          simp at hj
          exact h2 j hj
        · intro j pc hjs
          by_cases hj : j = t
          · subst hj
            rw [getElem?_set_self_of _ hpc] at hjs
            cases hjs
            rfl
          · rw [getElem?_set_of_ne _ hj] at hjs
            exact Pc.settled_of_pending _ (h5 j pc hj hjs)
    · have hp := h5 t pc htw hpc
      have hstay : ∀ (e : Event) (pc1 : Pc), e ≠ Event.cas true → (∀ x, e ≠ Event.emplace x) →
          pc1.pending = true →
          Inv c0 w a ((⟨State.Initializing, st, k, ths.set t pc1⟩ : Config), log ++ [(t, e)]) := by
        intro e pc1 he1 he2 hp1
        have hc : constructions (log ++ [(t, e)]) = constructions log := by
          rw [constructions_snoc]
          cases e <;> simp_all
        refine Inv.initializing_iff.2 ⟨by simp [casWins_snoc, h1, he1], ?_, h3, ?_, ?_⟩
        · intro j hj
          simp at hj
          rcases hj with hj | hj
          · exact h2 j hj
          · exact absurd hj.2.symm he1
        · rw [getElem?_set_of_ne _ (Ne.symm htw), hc]
          exact h4
        · intro j pc2 hj hjs
          by_cases hjt : j = t
          · subst hjt
            rw [getElem?_set_self_of _ hpc] at hjs
            cases hjs
            exact hp1
          · rw [getElem?_set_of_ne _ hjt] at hjs
            exact h5 j pc2 hj hjs
      cases pc with
      | init_cas args =>
        rw [exec_of_step (by simp [step, hpc, trySetInitializing, Config.goto]; exact ⟨rfl, rfl⟩)]
        exact ⟨hstay _ _ (by simp) (by simp) rfl, by simp⟩
      | instance_load =>
        rw [exec_of_step (by simp [step, hpc, Config.goto]; exact ⟨rfl, rfl⟩)]
        exact ⟨hstay _ _ (by simp) (by simp) rfl, by simp [Config.goto]⟩
      | instance_cas =>
        rw [exec_of_step (by simp [step, hpc, trySetInitializing, Config.goto]; exact ⟨rfl, rfl⟩)]
        exact ⟨hstay _ _ (by simp) (by simp) rfl, by simp⟩
      | instance_wait => exact hsame (by simp [step, hpc])
      | initialized_load =>
        rw [exec_of_step (by simp [step, hpc, Config.goto]; exact ⟨rfl, rfl⟩)]
        exact ⟨hstay _ _ (by simp) (by simp) rfl, by simp [Config.goto]⟩
      | returned_bool b => exact hsame (by simp [step, hpc])
      | threw e => exact hsame (by simp [step, hpc])
      | _ => simp [Pc.pending] at hp

theorem Inv.exec_initialized {c0 : Config} {w : Nat} {a : Args} {r : Run} (doi : Bool) (t : Nat)
    (h : Inv c0 w a r) (hs : r.1.m_state = State.Initialized) :
    Inv c0 w a (exec doi r t) ∧ (exec doi r t).1.m_state = State.Initialized := by
  obtain ⟨⟨s, st, k, ths⟩, log⟩ := r
  simp only at hs
  subst hs
  obtain ⟨h1, h2, h3, h4, h5, h6, h7, h8⟩ := Inv.initialized_iff.1 h
  subst h6
  have hsame : step doi ⟨State.Initialized, some (Instrumented.construct a), k, ths⟩ t = none →
      Inv c0 w a (exec doi (⟨State.Initialized, some (Instrumented.construct a), k, ths⟩, log) t) ∧
      (exec doi (⟨State.Initialized, some (Instrumented.construct a), k, ths⟩, log) t).1.m_state
        = State.Initialized := by
    intro hn
    rw [exec_of_step_none hn]
    exact ⟨h, rfl⟩
  cases hpc : ths[t]? with
  | none => exact hsame (by simp [step, hpc])
  | some pc =>
    have hp := h8 t pc hpc
    have hstay : ∀ (e : Event) (pc1 : Pc), e ≠ Event.cas true → (∀ x, e ≠ Event.emplace x) →
        pc1.settled (Instrumented.construct a) = true →
        Inv c0 w a ((⟨State.Initialized, some (Instrumented.construct a), k, ths.set t pc1⟩ :
          Config), log ++ [(t, e)]) := by
      intro e pc1 he1 he2 hp1
      have hc : constructions (log ++ [(t, e)]) = constructions log := by
        rw [constructions_snoc]
        cases e <;> simp_all
      refine Inv.initialized_iff.2 ⟨by simp [casWins_snoc, h1, he1], ?_, h3, by rw [hc, h4],
        List.mem_append_left _ h5, rfl, h7, getElem?_set_all h8 hp1⟩
      intro j hj
      simp at hj
      rcases hj with hj | hj
      · exact h2 j hj
      · exact absurd hj.2.symm he1
    cases pc with
    | init_cas args =>
      rw [exec_of_step (by simp [step, hpc, trySetInitializing, Config.goto]; exact ⟨rfl, rfl⟩)]
      exact ⟨hstay _ _ (by simp) (by simp) rfl, rfl⟩
    | instance_load =>
      rw [exec_of_step (by simp [step, hpc, Config.goto]; exact ⟨rfl, rfl⟩)]
      exact ⟨hstay _ _ (by simp) (by simp) rfl, rfl⟩
    | instance_cas =>
      rw [exec_of_step (by simp [step, hpc, trySetInitializing, Config.goto]; exact ⟨rfl, rfl⟩)]
      exact ⟨hstay _ _ (by simp) (by simp) rfl, rfl⟩
    | instance_wait =>
      rw [exec_of_step (by simp [step, hpc, Config.goto]; exact ⟨rfl, rfl⟩)]
      exact ⟨hstay _ _ (by simp) (by simp) rfl, rfl⟩
    | instance_ref =>
      rw [exec_of_step (by simp [step, hpc, Config.goto, ref]; exact ⟨rfl, rfl⟩)]
      exact ⟨hstay _ _ (by simp) (by simp) (by simp [Pc.settled]), rfl⟩
    | unsafe_notify =>
      rw [exec_of_step (by simp [step, hpc, Config.goto]; exact ⟨rfl, rfl⟩)]
      exact ⟨hstay _ _ (by simp) (by simp) rfl, rfl⟩
    | unsafe_ref =>
      rw [exec_of_step (by simp [step, hpc, Config.goto, ref]; exact ⟨rfl, rfl⟩)]
      exact ⟨hstay _ _ (by simp) (by simp) (by simp [Pc.settled]), rfl⟩
    | initialized_load =>
      rw [exec_of_step (by simp [step, hpc, Config.goto]; exact ⟨rfl, rfl⟩)]
      exact ⟨hstay _ _ (by simp) (by simp) rfl, rfl⟩
    | returned p => exact hsame (by simp [step, hpc])
    | returned_bool b => exact hsame (by simp [step, hpc])
    | threw e => exact hsame (by simp [step, hpc])
    | _ => simp [Pc.settled] at hp

theorem Inv.exec_later {c0 : Config} {w : Nat} {a : Args} {r : Run} (doi : Bool) (t : Nat)
    (h : Inv c0 w a r) (hs : r.1.m_state ≠ State.Uninitialized) :
    Inv c0 w a (exec doi r t) ∧ (exec doi r t).1.m_state ≠ State.Uninitialized := by
  cases hm : r.1.m_state with
  | Uninitialized => exact absurd hm hs
  | Initializing => exact Inv.exec_initializing doi t h hm
  | Initialized =>
    obtain ⟨h1, h2⟩ := Inv.exec_initialized doi t h hm
    exact ⟨h1, by rw [h2]; simp⟩

theorem Inv.along_later {c0 : Config} {w : Nat} {a : Args} (doi : Bool) (sched : List Nat) :
    ∀ {r : Run}, Inv c0 w a r → r.1.m_state ≠ State.Uninitialized →
      Inv c0 w a (runFrom doi r sched) ∧ (runFrom doi r sched).1.m_state ≠ State.Uninitialized := by
  induction sched with
  | nil => intro r h hs; exact ⟨h, hs⟩
  | cons t ts ih =>
    intro r h hs
    obtain ⟨h1, h2⟩ := Inv.exec_later doi t h hs
    exact ih h1 h2

theorem Inv.along {c0 : Config} (doi : Bool) (sched : List Nat) :
    ∀ {r : Run} {w : Nat} {a : Args}, Inv c0 w a r → ∃ w1 a1, Inv c0 w1 a1 (runFrom doi r sched) := by
  induction sched with
  | nil => intro r w a h; exact ⟨w, a, h⟩
  | cons t ts ih =>
    intro r w a h
    by_cases hs : r.1.m_state = State.Uninitialized
    · obtain ⟨w1, a1, h1⟩ := Inv.exec_uninit doi t h hs
      exact ih h1
    · exact ih (Inv.exec_later doi t h hs).1

/-- Every run from a fresh configuration satisfies the invariant, for some
winner and argument pack. -/
theorem Fresh.run_inv {c0 : Config} (h : Fresh c0) (doi : Bool) (sched : List Nat) :
    ∃ w a, Inv c0 w a (run doi c0 sched) :=
  Inv.along doi sched (h.inv 0 Args.empty)

/-! ## The claims -/

/-- C1: from a fresh slot, under either policy and along every schedule, at most
one compare-exchange of `trySetInitializing` succeeds, the payload is emplaced at
most once (the counters are those of the start or those after one constructor),
and whenever `m_state` is `Initialized` it has been emplaced exactly once and the
storage holds it. -/
theorem at_most_one_construction (c0 : Config) (h : Fresh c0) (doi : Bool) (sched : List Nat) :
    casWins (run doi c0 sched).2 ≤ 1 ∧
    constructions (run doi c0 sched).2 ≤ 1 ∧
    ((run doi c0 sched).1.counts = c0.counts ∨
      ∃ a, (run doi c0 sched).1.counts = Counters.construct a c0.counts) ∧
    ((run doi c0 sched).1.m_state = State.Initialized →
      constructions (run doi c0 sched).2 = 1 ∧
      ∃ a, (run doi c0 sched).1.storage = some (Instrumented.construct a) ∧
        (run doi c0 sched).1.counts = Counters.construct a c0.counts) := by
  obtain ⟨w, a, hi⟩ := h.run_inv doi sched
  generalize run doi c0 sched = r at hi
  obtain ⟨⟨s, st, k, ths⟩, log⟩ := r
  cases s with
  | Uninitialized =>
    obtain ⟨h1, h2, h3, h4, h5⟩ := Inv.uninit_iff.1 hi
    simp [h2, h3, h4]
  | Initializing =>
    obtain ⟨h1, h2, h3, h4, h5⟩ := Inv.initializing_iff.1 hi
    rcases h4 with ⟨g1, g2, g3, g4⟩ | ⟨g1, g2, g3, g4⟩
    · simp [h1, g3, g4]
    · refine ⟨by simp [h1], by simp [g4], Or.inr ⟨a, g3⟩, by simp⟩
  | Initialized =>
    obtain ⟨h1, h2, h3, h4, h5, h6, h7, h8⟩ := Inv.initialized_iff.1 hi
    exact ⟨by simp [h1], by simp [h4], Or.inr ⟨a, h7⟩, fun _ => ⟨h4, a, h6, h7⟩⟩

theorem at_most_one_construction_witness :
    Fresh (freshSlot [Pc.init_cas (Args.value 7), Pc.instance_load, Pc.init_cas Args.empty]) ∧
    (run true (freshSlot [Pc.init_cas (Args.value 7), Pc.instance_load, Pc.init_cas Args.empty])
        [1, 0, 2, 1, 0, 0, 1, 1]).1.m_state = State.Initialized ∧
    constructions
      (run true (freshSlot [Pc.init_cas (Args.value 7), Pc.instance_load, Pc.init_cas Args.empty])
        [1, 0, 2, 1, 0, 0, 1, 1]).2 = 1 :=
  ⟨by simp [Fresh, freshSlot, Pc.isEntry], by decide,
    ((at_most_one_construction _ (by simp [Fresh, freshSlot, Pc.isEntry]) true
      [1, 0, 2, 1, 0, 0, 1, 1]).2.2.2 (by decide)).1⟩

theorem lt_length_of_getElem? {l : List Pc} {t : Nat} {pc : Pc} (h : l[t]? = some pc) :
    t < l.length := by
  by_contra hge
  rw [List.getElem?_eq_none (by omega)] at h
  cases h

theorem getElem_of_getElem? {l : List Pc} {t : Nat} {pc : Pc} (h : l[t]? = some pc)
    (hlt : t < l.length) : l[t] = pc := by
  rw [List.getElem?_eq_getElem hlt] at h
  exact Option.some.inj h

theorem ne_of_getElem?_ne {l : List Pc} {t u : Nat} {p q : Pc} (ht : l[t]? = some p)
    (hu : l[u]? = some q) (hpq : p ≠ q) : t ≠ u := by
  rintro rfl
  rw [ht] at hu
  exact hpq (Option.some.inj hu)

/-- C2: on a slot that is `Uninitialized` with empty storage, under either
policy and for both argument packs, the five steps of a thread running
`init(args)` alone succeed: the storage holds exactly the payload constructed
from `args`, `m_state` is `Initialized`, the counters moved by the one
constructor that `args` selects, exactly one `emplace` was made, and the call
returned the stored payload.  A call of `initialized()` answers `false` before
and `true` after. -/
theorem init_fresh_succeeds (doi : Bool) (args : Args) (k : Counters) (ths : List Pc) (t : Nat)
    (h : ths[t]? = some (Pc.init_cas args)) :
    run doi ⟨State.Uninitialized, none, k, ths⟩ [t, t, t, t, t] =
      (⟨State.Initialized, some (Instrumented.construct args), Counters.construct args k,
          ths.set t (Pc.returned (Instrumented.construct args))⟩,
        [(t, Event.cas true), (t, Event.emplace args), (t, Event.store), (t, Event.notify),
          (t, Event.deref)]) ∧
    ∀ u, ths[u]? = some Pc.initialized_load →
      (run doi ⟨State.Uninitialized, none, k, ths⟩ [u]).1.threads[u]?
        = some (Pc.returned_bool false) ∧
      (run doi ⟨State.Uninitialized, none, k, ths⟩ [t, t, t, t, t, u]).1.threads[u]?
        = some (Pc.returned_bool true) := by
  have hlt := lt_length_of_getElem? h
  refine ⟨?_, ?_⟩
  · simp [run, runFrom, exec, step, h, trySetInitializing, Config.goto, List.getElem?_set, hlt,
      emplace, ref]
  · intro u hu
    have hlu := lt_length_of_getElem? hu
    have hne : t ≠ u := ne_of_getElem?_ne h hu (by simp)
    have hu1 := getElem_of_getElem? hu hlu
    have ht1 := getElem_of_getElem? h hlt
    simp [run, runFrom, exec, step, h, hu, trySetInitializing, Config.goto, List.getElem?_set,
      hlt, hlu, hne, emplace, ref, hu1, ht1]

theorem init_fresh_succeeds_witness :
    (run false (freshSlot [Pc.init_cas (Args.value 7)]) [0, 0, 0, 0, 0]).1 =
      ⟨State.Initialized, some ⟨⟨7⟩⟩, { Counters.reset_counts with value_ctor := 1 },
        [Pc.returned ⟨⟨7⟩⟩]⟩ ∧
    (run false (freshSlot [Pc.init_cas Args.empty]) [0, 0, 0, 0, 0]).1 =
      ⟨State.Initialized, some ⟨⟨0⟩⟩, { Counters.reset_counts with default_ctor := 1 },
        [Pc.returned ⟨⟨0⟩⟩]⟩ :=
  ⟨congrArg Prod.fst
      (init_fresh_succeeds false (Args.value 7) Counters.reset_counts
        [Pc.init_cas (Args.value 7)] 0 rfl).1,
    congrArg Prod.fst
      (init_fresh_succeeds false Args.empty Counters.reset_counts
        [Pc.init_cas Args.empty] 0 rfl).1⟩

/-- C3: on a slot that is `Initialized` and holds `p` (however it got there),
`init(args)` makes one failed compare-exchange and throws `AlreadyInitialized`;
nothing is constructed and `m_state`, the storage and the counters are
unchanged.  A call of `instance()` made before it and one made after it both
return the stored `p`. -/
theorem init_on_initialized_fails (doi : Bool) (args : Args) (p : Instrumented) (k : Counters)
    (ths : List Pc) (t : Nat) (h : ths[t]? = some (Pc.init_cas args)) :
    run doi ⟨State.Initialized, some p, k, ths⟩ [t] =
      (⟨State.Initialized, some p, k, ths.set t (Pc.threw Error.AlreadyInitialized)⟩,
        [(t, Event.cas false)]) ∧
    ∀ u v, u ≠ v → ths[u]? = some Pc.instance_load → ths[v]? = some Pc.instance_load →
      run doi ⟨State.Initialized, some p, k, ths⟩ [u, u, t, v, v] =
        (⟨State.Initialized, some p, k,
            ((ths.set u (Pc.returned p)).set t (Pc.threw Error.AlreadyInitialized)).set v
              (Pc.returned p)⟩,
          [(u, Event.load State.Initialized), (u, Event.deref), (t, Event.cas false),
            (v, Event.load State.Initialized), (v, Event.deref)]) := by
  have hlt := lt_length_of_getElem? h
  refine ⟨?_, ?_⟩
  · simp [run, runFrom, exec, step, h, trySetInitializing, Config.goto]
  · intro u v huv hu hv
    have hlu := lt_length_of_getElem? hu
    have hlv := lt_length_of_getElem? hv
    have h1 : u ≠ t := ne_of_getElem?_ne hu h (by simp)
    have h2 : t ≠ v := ne_of_getElem?_ne h hv (by simp)
    have hu1 := getElem_of_getElem? hu hlu
    have hv1 := getElem_of_getElem? hv hlv
    have ht1 := getElem_of_getElem? h hlt
    simp [run, runFrom, exec, step, h, hu, hv, trySetInitializing, Config.goto,
      List.getElem?_set, hlt, hlu, hlv, h1, h2, huv, ref, hu1, hv1, ht1]

theorem init_on_initialized_fails_witness :
    (run false (freshSlot [Pc.init_cas (Args.value 3), Pc.instance_load, Pc.init_cas (Args.value 4),
        Pc.instance_load]) [0, 0, 0, 0, 0, 1, 1, 2, 3, 3]).1 =
      ⟨State.Initialized, some ⟨⟨3⟩⟩, { Counters.reset_counts with value_ctor := 1 },
        [Pc.returned ⟨⟨3⟩⟩, Pc.returned ⟨⟨3⟩⟩, Pc.threw Error.AlreadyInitialized,
          Pc.returned ⟨⟨3⟩⟩]⟩ ∧
    run true ⟨State.Initialized, some ⟨⟨0⟩⟩, Counters.reset_counts, [Pc.init_cas (Args.value 9)]⟩ [0]
      = (⟨State.Initialized, some ⟨⟨0⟩⟩, Counters.reset_counts,
          [Pc.threw Error.AlreadyInitialized]⟩, [(0, Event.cas false)]) :=
  ⟨by decide,
    (init_on_initialized_fails true (Args.value 9) ⟨⟨0⟩⟩ Counters.reset_counts
      [Pc.init_cas (Args.value 9)] 0 rfl).1⟩

/-- C4: on a slot that is `Initializing` (storage empty or not), `init(args)`
has a step, that step is its one failed compare-exchange, and it ends the call
with `AlreadyInitialized`: the thread never stands at the wait, and `m_state`,
the storage and the counters are unchanged. -/
theorem init_while_initializing_fails (doi : Bool) (args : Args) (st : Option Instrumented)
    (k : Counters) (ths : List Pc) (t : Nat) (h : ths[t]? = some (Pc.init_cas args)) :
    step doi ⟨State.Initializing, st, k, ths⟩ t =
      some (Event.cas false,
        ⟨State.Initializing, st, k, ths.set t (Pc.threw Error.AlreadyInitialized)⟩) ∧
    step doi ⟨State.Initializing, st, k, ths.set t (Pc.threw Error.AlreadyInitialized)⟩ t = none ∧
    ∀ n, run doi ⟨State.Initializing, st, k, ths⟩ (List.replicate (n + 1) t) =
      (⟨State.Initializing, st, k, ths.set t (Pc.threw Error.AlreadyInitialized)⟩,
        [(t, Event.cas false)]) := by
  have hlt := lt_length_of_getElem? h
  have h1 : step doi ⟨State.Initializing, st, k, ths⟩ t =
      some (Event.cas false,
        ⟨State.Initializing, st, k, ths.set t (Pc.threw Error.AlreadyInitialized)⟩) := by
    simp [step, h, trySetInitializing, Config.goto]
  have h2 : step doi ⟨State.Initializing, st, k,
      ths.set t (Pc.threw Error.AlreadyInitialized)⟩ t = none := by
    simp [step, List.getElem?_set, hlt]
  refine ⟨h1, h2, ?_⟩
  intro n
  have hfix : ∀ m, runFrom doi (⟨State.Initializing, st, k,
      ths.set t (Pc.threw Error.AlreadyInitialized)⟩, [(t, Event.cas false)])
        (List.replicate m t) =
      (⟨State.Initializing, st, k, ths.set t (Pc.threw Error.AlreadyInitialized)⟩,
        [(t, Event.cas false)]) := by
    intro m
    induction m with
    | zero => rfl
    | succ m ih =>
      rw [List.replicate_succ, runFrom, List.foldl_cons, exec_of_step_none h2]
      exact ih
  rw [List.replicate_succ, run, runFrom, List.foldl_cons, exec_of_step h1]
  exact hfix n

theorem init_while_initializing_fails_witness :
    step false ⟨State.Initializing, none, Counters.reset_counts,
        [Pc.unsafe_emplace (Args.value 5), Pc.init_cas (Args.value 6)]⟩ 1 =
      some (Event.cas false, ⟨State.Initializing, none, Counters.reset_counts,
        [Pc.unsafe_emplace (Args.value 5), Pc.threw Error.AlreadyInitialized]⟩) :=
  (init_while_initializing_fails false (Args.value 6) none Counters.reset_counts
    [Pc.unsafe_emplace (Args.value 5), Pc.init_cas (Args.value 6)] 1 rfl).1

/-- C5: under the explicit policy, on a slot that is `Uninitialized`, a call of
`instance()` has a step, loads `Uninitialized` and throws `NotInitialized`;
nothing is constructed and `m_state`, the storage and the counters are
unchanged.  `initialized()` answers `false` before and after, and a later
`init(v)` runs to its end, stores the payload built from `v` and returns it. -/
theorem instance_explicit_uninitialized_fails (st : Option Instrumented) (k : Counters)
    (ths : List Pc) (t : Nat) (h : ths[t]? = some Pc.instance_load) :
    run false ⟨State.Uninitialized, st, k, ths⟩ [t] =
      (⟨State.Uninitialized, st, k, ths.set t (Pc.threw Error.NotInitialized)⟩,
        [(t, Event.load State.Uninitialized)]) ∧
    ∀ u v w x, u ≠ v → ths[u]? = some Pc.initialized_load →
      ths[v]? = some Pc.initialized_load → ths[w]? = some (Pc.init_cas (Args.value x)) →
      (run false ⟨State.Uninitialized, st, k, ths⟩ [u, t, v, w, w, w, w, w]).1 =
        ⟨State.Initialized, some (Instrumented.construct (Args.value x)),
          (emplace (Args.value x) st k).2,
          (((ths.set u (Pc.returned_bool false)).set t (Pc.threw Error.NotInitialized)).set v
            (Pc.returned_bool false)).set w
              (Pc.returned (Instrumented.construct (Args.value x)))⟩ := by
  have hlt := lt_length_of_getElem? h
  refine ⟨?_, ?_⟩
  · simp [run, runFrom, exec, step, h, Config.goto]
  · intro u v w x huv hu hv hw
    have hlu := lt_length_of_getElem? hu
    have hlv := lt_length_of_getElem? hv
    have hlw := lt_length_of_getElem? hw
    have h1 : u ≠ t := ne_of_getElem?_ne hu h (by simp)
    have h2 : t ≠ v := ne_of_getElem?_ne h hv (by simp)
    have h3 : u ≠ w := ne_of_getElem?_ne hu hw (by simp)
    have h4 : t ≠ w := ne_of_getElem?_ne h hw (by simp)
    have h5 : v ≠ w := ne_of_getElem?_ne hv hw (by simp)
    have hu1 := getElem_of_getElem? hu hlu
    have hv1 := getElem_of_getElem? hv hlv
    have hw1 := getElem_of_getElem? hw hlw
    have ht1 := getElem_of_getElem? h hlt
    cases st <;>
    simp [run, runFrom, exec, step, h, hu, hv, hw, trySetInitializing, Config.goto,
      List.getElem?_set, hlt, hlu, hlv, hlw, h1, h2, h3, h4, h5, huv, ref, hu1, hv1, hw1, ht1,
      emplace]

theorem instance_explicit_uninitialized_fails_witness :
    run false (freshSlot [Pc.instance_load]) [0] =
      (⟨State.Uninitialized, none, Counters.reset_counts, [Pc.threw Error.NotInitialized]⟩,
        [(0, Event.load State.Uninitialized)]) :=
  (instance_explicit_uninitialized_fails none Counters.reset_counts [Pc.instance_load] 0 rfl).1

/-- C6: under the auto policy, on a slot that is `Uninitialized` with empty
storage, the six steps of a thread running `instance()` alone succeed: one
default construction and no value construction, the storage holds the
default-constructed payload, `m_state` is `Initialized`, and the call returned
the stored payload.  `initialized()` answers `false` before and `true` after. -/
theorem instance_auto_constructs (k : Counters) (ths : List Pc) (t : Nat)
    (h : ths[t]? = some Pc.instance_load) :
    run true ⟨State.Uninitialized, none, k, ths⟩ [t, t, t, t, t, t] =
      (⟨State.Initialized, some (Instrumented.construct Args.empty),
          { k with default_ctor := incr k.default_ctor },
          ths.set t (Pc.returned (Instrumented.construct Args.empty))⟩,
        [(t, Event.load State.Uninitialized), (t, Event.cas true), (t, Event.emplace Args.empty),
          (t, Event.store), (t, Event.notify), (t, Event.deref)]) ∧
    ∀ u, ths[u]? = some Pc.initialized_load →
      (run true ⟨State.Uninitialized, none, k, ths⟩ [u]).1.threads[u]?
        = some (Pc.returned_bool false) ∧
      (run true ⟨State.Uninitialized, none, k, ths⟩ [t, t, t, t, t, t, u]).1.threads[u]?
        = some (Pc.returned_bool true) := by
  have hlt := lt_length_of_getElem? h
  refine ⟨?_, ?_⟩
  · simp [run, runFrom, exec, step, h, trySetInitializing, Config.goto, List.getElem?_set, hlt,
      emplace, ref, Counters.construct]
  · intro u hu
    have hlu := lt_length_of_getElem? hu
    have hne : t ≠ u := ne_of_getElem?_ne h hu (by simp)
    have hu1 := getElem_of_getElem? hu hlu
    have ht1 := getElem_of_getElem? h hlt
    simp [run, runFrom, exec, step, h, hu, trySetInitializing, Config.goto, List.getElem?_set,
      hlt, hlu, hne, emplace, ref, hu1, ht1]

theorem instance_auto_constructs_witness :
    (run true (freshSlot [Pc.instance_load]) [0, 0, 0, 0, 0, 0]).1 =
      ⟨State.Initialized, some ⟨⟨0⟩⟩, { Counters.reset_counts with default_ctor := 1 },
        [Pc.returned ⟨⟨0⟩⟩]⟩ :=
  congrArg Prod.fst (instance_auto_constructs Counters.reset_counts [Pc.instance_load] 0 rfl).1

theorem Inv.returned {c0 : Config} {w : Nat} {a : Args} {r : Run} (h : Inv c0 w a r)
    {i : Nat} {q : Instrumented} (hq : r.1.threads[i]? = some (Pc.returned q)) :
    r.1.m_state = State.Initialized ∧ r.1.storage = some q ∧ q = Instrumented.construct a ∧
      (w, Event.store) ∈ r.2 := by
  obtain ⟨⟨s, st, k, ths⟩, log⟩ := r
  cases s with
  | Uninitialized =>
    obtain ⟨h1, h2, h3, h4, h5⟩ := Inv.uninit_iff.1 h
    have := (h5 i _ hq).1
    simp [Pc.early] at this
  | Initializing =>
    obtain ⟨h1, h2, h3, h4, h5⟩ := Inv.initializing_iff.1 h
    by_cases hi : i = w
    · subst hi
      simp only at hq
      rcases h4 with ⟨g1, _⟩ | ⟨g1, _⟩ <;> · rw [hq] at g1; cases g1
    · have := h5 i _ hi hq
      simp [Pc.pending] at this
  | Initialized =>
    obtain ⟨h1, h2, h3, h4, h5, h6, h7, h8⟩ := Inv.initialized_iff.1 h
    have := h8 i _ hq
    simp [Pc.settled] at this
    subst this
    exact ⟨rfl, h6, rfl, h5⟩

theorem exec_reads (doi : Bool) (p : Instrumented) (k : Counters) (ths : List Pc)
    (log : List (Nat × Event)) (t : Nat)
    (hall : ∀ (j : Nat) (pc : Pc), ths[j]? = some pc → pc.reads p) :
    ∃ ths1 log1, exec doi (⟨State.Initialized, some p, k, ths⟩, log) t =
        (⟨State.Initialized, some p, k, ths1⟩, log1) ∧
      constructions log1 = constructions log ∧
      (∀ (j : Nat) (pc : Pc), ths1[j]? = some pc → pc.reads p) ∧
      (∀ (j : Nat) (pc : Pc), ths[j]? = some pc → ∃ pc1, ths1[j]? = some pc1 ∧
        pc1.readRank = min 2 (pc.readRank + (if j = t then 1 else 0))) := by
  have hsame : step doi ⟨State.Initialized, some p, k, ths⟩ t = none →
      (∀ pc, ths[t]? = some pc → pc.readRank = 2) →
      ∃ ths1 log1, exec doi (⟨State.Initialized, some p, k, ths⟩, log) t =
        (⟨State.Initialized, some p, k, ths1⟩, log1) ∧
      constructions log1 = constructions log ∧
      (∀ (j : Nat) (pc : Pc), ths1[j]? = some pc → pc.reads p) ∧
      (∀ (j : Nat) (pc : Pc), ths[j]? = some pc → ∃ pc1, ths1[j]? = some pc1 ∧
        pc1.readRank = min 2 (pc.readRank + (if j = t then 1 else 0))) := by
    intro hn hr
    refine ⟨ths, log, exec_of_step_none hn, rfl, hall, ?_⟩
    intro j pc hj
    refine ⟨pc, hj, ?_⟩
    by_cases hjt : j = t
    · subst hjt
      simp [hr pc hj]
    · simp [hjt]
      have : pc.readRank ≤ 2 := by cases pc <;> simp [Pc.readRank]
      omega
  have hmove : ∀ (e : Event) (pc0 pc1 : Pc), ths[t]? = some pc0 →
      step doi ⟨State.Initialized, some p, k, ths⟩ t =
        some (e, ⟨State.Initialized, some p, k, ths.set t pc1⟩) →
      (∀ x, e ≠ Event.emplace x) → pc1.reads p → pc1.readRank = min 2 (pc0.readRank + 1) →
      ∃ ths1 log1, exec doi (⟨State.Initialized, some p, k, ths⟩, log) t =
        (⟨State.Initialized, some p, k, ths1⟩, log1) ∧
      constructions log1 = constructions log ∧
      (∀ (j : Nat) (pc : Pc), ths1[j]? = some pc → pc.reads p) ∧
      (∀ (j : Nat) (pc : Pc), ths[j]? = some pc → ∃ pc1, ths1[j]? = some pc1 ∧
        pc1.readRank = min 2 (pc.readRank + (if j = t then 1 else 0))) := by
    intro e pc0 pc1 h0 hst he hp1 hrk
    refine ⟨_, _, exec_of_step hst, ?_, getElem?_set_all hall hp1, ?_⟩
    · rw [constructions_snoc]
      cases e <;> simp_all
    · intro j pc hj
      by_cases hjt : j = t
      · subst hjt
        rw [h0] at hj
        cases hj
        exact ⟨pc1, getElem?_set_self_of _ h0, by simpa using hrk⟩
      · refine ⟨pc, by rw [getElem?_set_of_ne _ hjt]; exact hj, ?_⟩
        simp [hjt]
        have : pc.readRank ≤ 2 := by cases pc <;> simp [Pc.readRank]
        omega
  cases hpc : ths[t]? with
  | none => exact hsame (by simp [step, hpc]) (by simp [hpc])
  | some pc =>
    rcases hall t pc hpc with rfl | rfl | rfl
    · exact hmove (Event.load State.Initialized) _ Pc.instance_ref hpc
        (by simp [step, hpc, Config.goto]) (by simp)
        (Or.inr (Or.inl rfl)) rfl
    · exact hmove Event.deref _ (Pc.returned p) hpc
        (by simp [step, hpc, Config.goto, ref]) (by simp)
        (Or.inr (Or.inr rfl)) rfl
    · exact hsame (by simp [step, hpc]) (by intro pc h; rw [hpc] at h; cases h; rfl)

theorem runFrom_reads (doi : Bool) (p : Instrumented) (k : Counters) (sched : List Nat) :
    ∀ (ths : List Pc) (log : List (Nat × Event)),
      (∀ (j : Nat) (pc : Pc), ths[j]? = some pc → pc.reads p) →
      ∃ ths1 log1, runFrom doi (⟨State.Initialized, some p, k, ths⟩, log) sched =
          (⟨State.Initialized, some p, k, ths1⟩, log1) ∧
        constructions log1 = constructions log ∧
        (∀ (j : Nat) (pc : Pc), ths1[j]? = some pc → pc.reads p) ∧
        (∀ (j : Nat) (pc : Pc), ths[j]? = some pc → ∃ pc1, ths1[j]? = some pc1 ∧
          pc1.readRank = min 2 (pc.readRank + sched.count j)) := by
  induction sched with
  | nil =>
    intro ths log hall
    refine ⟨ths, log, rfl, rfl, hall, ?_⟩
    intro j pc hj
    refine ⟨pc, hj, ?_⟩
    have : pc.readRank ≤ 2 := by cases pc <;> simp [Pc.readRank]
    simp
    omega
  | cons t ts ih =>
    intro ths log hall
    obtain ⟨ths1, log1, e1, c1, a1, r1⟩ := exec_reads doi p k ths log t hall
    obtain ⟨ths2, log2, e2, c2, a2, r2⟩ := ih ths1 log1 a1
    refine ⟨ths2, log2, ?_, by rw [c2, c1], a2, ?_⟩
    · rw [runFrom, List.foldl_cons, e1]
      exact e2
    · intro j pc hj
      obtain ⟨pc1, hj1, hr1⟩ := r1 j pc hj
      obtain ⟨pc2, hj2, hr2⟩ := r2 j pc1 hj1
      refine ⟨pc2, hj2, ?_⟩
      rw [hr2, hr1, List.count_cons]
      by_cases hjt : j = t
      · subst hjt
        simp
        omega
      · have : ¬ (t = j) := fun h => hjt h.symm
        simp [hjt, this]
        omega

/-- C7: on a slot that is `Initialized` and holds `p`, under either policy, a
call of `instance()` takes two steps, the load and the dereference, and returns
`p`; with any number of such calls and along every schedule `m_state`, the
storage and all counters stay as they are, nothing is constructed, no thread is
ever blocked (two turns end a call), and every call that is over returned `p`.
From a fresh slot, every reference returned by any call, the constructing one
included, denotes the stored payload. -/
theorem instance_read_idempotent (doi : Bool) (p : Instrumented) (k : Counters) (ths : List Pc)
    (h : ∀ pc ∈ ths, pc = Pc.instance_load) :
    (∀ t, t < ths.length →
      run doi ⟨State.Initialized, some p, k, ths⟩ [t, t] =
        (⟨State.Initialized, some p, k, ths.set t (Pc.returned p)⟩,
          [(t, Event.load State.Initialized), (t, Event.deref)])) ∧
    (∀ sched,
      (run doi ⟨State.Initialized, some p, k, ths⟩ sched).1.m_state = State.Initialized ∧
      (run doi ⟨State.Initialized, some p, k, ths⟩ sched).1.storage = some p ∧
      (run doi ⟨State.Initialized, some p, k, ths⟩ sched).1.counts = k ∧
      constructions (run doi ⟨State.Initialized, some p, k, ths⟩ sched).2 = 0 ∧
      (∀ (j : Nat) (pc : Pc),
        (run doi ⟨State.Initialized, some p, k, ths⟩ sched).1.threads[j]? = some pc →
          pc = Pc.instance_load ∨ pc = Pc.instance_ref ∨ pc = Pc.returned p) ∧
      (∀ t, t < ths.length → 2 ≤ sched.count t →
        (run doi ⟨State.Initialized, some p, k, ths⟩ sched).1.threads[t]?
          = some (Pc.returned p))) ∧
    (∀ c0, Fresh c0 → ∀ sched (i : Nat) (q : Instrumented),
      (run doi c0 sched).1.threads[i]? = some (Pc.returned q) →
        (run doi c0 sched).1.storage = some q) := by
  have hall : ∀ (j : Nat) (pc : Pc), ths[j]? = some pc → pc.reads p := by
    intro j pc hj
    exact Or.inl (h pc (List.getElem?_mem hj))
  refine ⟨?_, ?_, ?_⟩
  · intro t hlt
    have ht : ths[t]? = some Pc.instance_load := by
      rw [List.getElem?_eq_getElem hlt]
      exact congrArg some (h _ (List.getElem_mem _))
    simp [run, runFrom, exec, step, ht, Config.goto, List.getElem?_set, hlt, ref]
  · intro sched
    obtain ⟨ths1, log1, e1, c1, a1, r1⟩ := runFrom_reads doi p k sched ths [] hall
    have e2 : run doi ⟨State.Initialized, some p, k, ths⟩ sched =
        (⟨State.Initialized, some p, k, ths1⟩, log1) := e1
    rw [e2]
    refine ⟨rfl, rfl, rfl, c1, a1, ?_⟩
    intro t hlt hc
    have ht : ths[t]? = some Pc.instance_load := by
      rw [List.getElem?_eq_getElem hlt]
      exact congrArg some (h _ (List.getElem_mem _))
    obtain ⟨pc1, hp1, hr1⟩ := r1 t _ ht
    have hr2 : pc1.readRank = 2 := by
      rw [hr1]
      simp [Pc.readRank]
      exact hc
    rcases a1 t pc1 hp1 with rfl | rfl | rfl
    · simp [Pc.readRank] at hr2
    · simp [Pc.readRank] at hr2
    · exact hp1
  · intro c0 hf sched i q hq
    obtain ⟨w, a, hi⟩ := hf.run_inv doi sched
    exact (hi.returned hq).2.1

theorem instance_read_idempotent_witness :
    (run false ⟨State.Initialized, some ⟨⟨11⟩⟩, Counters.reset_counts,
        [Pc.instance_load, Pc.instance_load]⟩ [0, 1, 1, 0]).1.threads[1]? =
      some (Pc.returned ⟨⟨11⟩⟩) :=
  ((instance_read_idempotent false ⟨⟨11⟩⟩ Counters.reset_counts
    [Pc.instance_load, Pc.instance_load] (by simp)).2.1 [0, 1, 1, 0]).2.2.2.2.2 1
    (by decide) (by decide)

theorem step_threads {doi : Bool} {c c1 : Config} {t : Nat} {e : Event}
    (h : step doi c t = some (e, c1)) : ∃ pc1, c1.threads = c.threads.set t pc1 := by
  cases hpc : c.threads[t]? with
  | none => simp [step, hpc] at h
  | some pc =>
    cases pc <;> cases hm : c.m_state <;> cases doi <;>
      simp [step, hpc, hm, trySetInitializing, Config.goto] at h <;>
      (obtain ⟨_, rfl⟩ := h; exact ⟨_, rfl⟩)

theorem Pc.afterLoad_ref (doi : Bool) (s : State) (st : Option Instrumented) :
    (ref st).afterLoad doi s = (doi || decide (s ≠ State.Uninitialized)) := by
  cases st <;> rfl

theorem InstTrail.load {doi : Bool} {t : Nat} {log : List (Nat × Event)}
    (hno : ∀ e, (t, e) ∉ log) (s : State) {pc1 : Pc} (h1 : pc1.afterLoad doi s = true) :
    InstTrail doi t (log ++ [(t, Event.load s)]) pc1 := by
  refine Or.inr ⟨s, by simp, ?_, h1⟩
  intro s1 hs1
  simp at hs1
  rcases hs1 with hs1 | hs1
  · exact absurd hs1 (hno _)
  · exact hs1

theorem InstTrail.move {doi : Bool} {t : Nat} {log : List (Nat × Event)} {s : State}
    (hs1 : (t, Event.load s) ∈ log) (hs2 : ∀ s1, (t, Event.load s1) ∈ log → s1 = s)
    (e : Event) (he : ∀ s1, e ≠ Event.load s1) {pc1 : Pc} (h1 : pc1.afterLoad doi s = true) :
    InstTrail doi t (log ++ [(t, e)]) pc1 := by
  refine Or.inr ⟨s, List.mem_append_left _ hs1, ?_, h1⟩
  intro s1 hm
  simp at hm
  rcases hm with hm | hm
  · exact hs2 s1 hm
  · exact absurd hm.symm (he s1)

theorem InstTrail.after_exec {doi : Bool} {t : Nat} {r : Run} {pc : Pc}
    (hpc : r.1.threads[t]? = some pc) (h : InstTrail doi t r.2 pc) (u : Nat) :
    ∃ pc1, (exec doi r u).1.threads[t]? = some pc1 ∧ InstTrail doi t (exec doi r u).2 pc1 := by
  obtain ⟨c, log⟩ := r
  simp only at hpc h
  cases hstep : step doi c u with
  | none =>
    rw [exec_of_step_none hstep]
    exact ⟨pc, hpc, h⟩
  | some ec =>
    obtain ⟨e, c1⟩ := ec
    rw [exec_of_step hstep]
    by_cases hut : u = t
    · subst hut
      rcases h with ⟨rfl, hno⟩ | ⟨s, hs1, hs2, hs3⟩
      · cases hm : c.m_state <;> cases doi <;>
          simp [step, hpc, hm, Config.goto] at hstep <;>
          obtain ⟨rfl, rfl⟩ := hstep <;>
          exact ⟨_, getElem?_set_self_of _ hpc, InstTrail.load hno _ (by simp [Pc.afterLoad])⟩
      · cases pc <;> simp [Pc.afterLoad] at hs3 <;> cases hm : c.m_state <;>
          simp [step, hpc, hm, trySetInitializing, Config.goto] at hstep <;>
          obtain ⟨rfl, rfl⟩ := hstep <;>
          exact ⟨_, getElem?_set_self_of _ hpc, InstTrail.move hs1 hs2 _ (by simp)
            (by
              first | rw [Pc.afterLoad_ref] | skip
              revert hs3
              cases s <;> cases doi <;> simp [Pc.afterLoad])⟩
    · obtain ⟨pc1, hc1⟩ := step_threads hstep
      refine ⟨pc, by simp only [hc1]; rw [getElem?_set_of_ne _ (Ne.symm hut)]; exact hpc, ?_⟩
      have hiff : ∀ x, (t, x) ∈ log ++ [(u, e)] ↔ (t, x) ∈ log := by
        intro x
        simp [Ne.symm hut]
      rcases h with ⟨rfl, hno⟩ | ⟨s, hs1, hs2, hs3⟩
      · exact Or.inl ⟨rfl, fun x hx => hno x ((hiff x).1 hx)⟩
      · exact Or.inr ⟨s, (hiff _).2 hs1, fun s1 hm => hs2 s1 ((hiff _).1 hm), hs3⟩

theorem InstTrail.kept_along {doi : Bool} {t : Nat} (sched : List Nat) :
    ∀ {r : Run} {pc : Pc}, r.1.threads[t]? = some pc → InstTrail doi t r.2 pc →
      ∃ pc1, (runFrom doi r sched).1.threads[t]? = some pc1 ∧
        InstTrail doi t (runFrom doi r sched).2 pc1 := by
  induction sched with
  | nil => intro r pc hpc h; exact ⟨pc, hpc, h⟩
  | cons u us ih =>
    intro r pc hpc h
    obtain ⟨pc1, h1, h2⟩ := InstTrail.after_exec hpc h u
    exact ih h1 h2

/-- C8: for a thread that enters `instance()` in any configuration, along every
schedule: its call has thrown exactly when the policy is explicit and the state
it loaded was `Uninitialized`, and what it threw is `NotInitialized`.  So under
the auto policy it never throws, and under the explicit policy it does not
throw once it loaded `Initializing` or `Initialized`. -/
theorem instance_throws_iff (doi : Bool) (c0 : Config) (t : Nat)
    (h : c0.threads[t]? = some Pc.instance_load) (sched : List Nat) :
    ((∃ e, (run doi c0 sched).1.threads[t]? = some (Pc.threw e)) ↔
        (doi = false ∧ (t, Event.load State.Uninitialized) ∈ (run doi c0 sched).2)) ∧
    (∀ e, (run doi c0 sched).1.threads[t]? = some (Pc.threw e) → e = Error.NotInitialized) ∧
    (doi = true → ∀ e, (run doi c0 sched).1.threads[t]? ≠ some (Pc.threw e)) ∧
    (∀ s, s ≠ State.Uninitialized → (t, Event.load s) ∈ (run doi c0 sched).2 →
        ∀ e, (run doi c0 sched).1.threads[t]? ≠ some (Pc.threw e)) := by
  have h0 : InstTrail doi t ((c0, []) : Run).2 Pc.instance_load := Or.inl ⟨rfl, by simp⟩
  obtain ⟨pc1, hp1, ht⟩ := InstTrail.kept_along sched
    (show ((c0, []) : Run).1.threads[t]? = some Pc.instance_load from h) h0
  have hrun : run doi c0 sched = runFrom doi (c0, []) sched := rfl
  rw [hrun]
  generalize runFrom doi (c0, []) sched = r at hp1 ht
  rw [hp1]
  rcases ht with ⟨rfl, hno⟩ | ⟨s, hs1, hs2, hs3⟩
  · refine ⟨⟨?_, ?_⟩, ?_, ?_, ?_⟩
    · rintro ⟨e, he⟩
      cases he
    · rintro ⟨_, hm⟩
      exact absurd hm (hno _)
    · intro e he
      cases he
    · intro _ e he
      cases he
    · intro s _ _ e he
      cases he
  · refine ⟨⟨?_, ?_⟩, ?_, ?_, ?_⟩
    · rintro ⟨e, he⟩
      cases he
      simp [Pc.afterLoad] at hs3
      obtain ⟨⟨rfl, rfl⟩, _⟩ := hs3
      exact ⟨rfl, hs1⟩
    · rintro ⟨rfl, hm⟩
      have := hs2 _ hm
      subst this
      cases pc1 <;> simp [Pc.afterLoad] at hs3
      subst hs3
      exact ⟨_, rfl⟩
    · intro e he
      cases he
      simp [Pc.afterLoad] at hs3
      exact hs3.2
    · rintro rfl e he
      cases he
      simp [Pc.afterLoad] at hs3
    · intro s1 hne hm e he
      cases he
      have := hs2 _ hm
      subst this
      simp [Pc.afterLoad] at hs3
      exact hne hs3.1.1

theorem instance_throws_iff_witness :
    ((∃ e, (run false (freshSlot [Pc.instance_load, Pc.init_cas (Args.value 7)]) [1, 0, 1]).1.threads[0]?
        = some (Pc.threw e)) ↔
      (false = false ∧ (0, Event.load State.Uninitialized) ∈
        (run false (freshSlot [Pc.instance_load, Pc.init_cas (Args.value 7)]) [1, 0, 1]).2)) ∧
    (0, Event.load State.Initializing) ∈
      (run false (freshSlot [Pc.instance_load, Pc.init_cas (Args.value 7)]) [1, 0, 1]).2 :=
  ⟨(instance_throws_iff false (freshSlot [Pc.instance_load, Pc.init_cas (Args.value 7)]) 0 rfl
    [1, 0, 1]).1, by decide⟩

theorem run_append (doi : Bool) (c0 : Config) (s1 s2 : List Nat) :
    run doi c0 (s1 ++ s2) = runFrom doi (run doi c0 s1) s2 := by
  simp [run, runFrom, List.foldl_append]

theorem Inv.winner {c0 : Config} {w1 : Nat} {a : Args} {r : Run} (h : Inv c0 w1 a r)
    {w : Nat} (hw : (w, Event.cas true) ∈ r.2) :
    w1 = w ∧ r.1.m_state ≠ State.Uninitialized ∧ Origin c0 w a := by
  obtain ⟨⟨s, st, k, ths⟩, log⟩ := r
  cases s with
  | Uninitialized =>
    obtain ⟨h1, h2, h3, h4, h5⟩ := Inv.uninit_iff.1 h
    exact absurd hw (not_mem_of_casWins_zero h3 w)
  | Initializing =>
    obtain ⟨h1, h2, h3, h4, h5⟩ := Inv.initializing_iff.1 h
    have := h2 w hw
    subst this
    exact ⟨rfl, by simp, h3⟩
  | Initialized =>
    obtain ⟨h1, h2, h3, h4, h5, h6, h7, h8⟩ := Inv.initialized_iff.1 h
    have := h2 w hw
    subst this
    exact ⟨rfl, by simp, h3⟩

/-- A thread at the wait, at the dereference or returned, on an initialized
slot holding `p`, has returned `p` after two turns. -/
theorem runFrom_two_reads (doi : Bool) (p : Instrumented) (k : Counters) (ths : List Pc)
    (log : List (Nat × Event)) (t : Nat)
    (h : ths[t]? = some Pc.instance_wait ∨ ths[t]? = some Pc.instance_ref ∨
      ths[t]? = some (Pc.returned p)) :
    (runFrom doi (⟨State.Initialized, some p, k, ths⟩, log) [t, t]).1.threads[t]? =
      some (Pc.returned p) := by
  rcases h with h | h | h
  all_goals
    have hlt := lt_length_of_getElem? h
    have h1 := getElem_of_getElem? h hlt
    simp [runFrom, exec, step, h, Config.goto, List.getElem?_set, hlt, ref, h1]

/-- While the slot is `Initializing`, two turns of the winner publish
`Initialized`. -/
theorem Inv.publish {c0 : Config} {w : Nat} {a : Args} {r : Run} (doi : Bool)
    (h : Inv c0 w a r) (hs : r.1.m_state = State.Initializing) :
    (Singleton.runFrom doi r [w, w]).1.m_state = State.Initialized := by
  obtain ⟨⟨s, st, k, ths⟩, log⟩ := r
  simp only at hs
  subst hs
  obtain ⟨h1, h2, h3, h4, h5⟩ := Inv.initializing_iff.1 h
  rcases h4 with ⟨g1, g2, g3, g4⟩ | ⟨g1, g2, g3, g4⟩
  all_goals
    have hlt := lt_length_of_getElem? g1
    have g5 := getElem_of_getElem? g1 hlt
    simp [Singleton.runFrom, Singleton.exec, step, g1, Config.goto, List.getElem?_set, hlt, g5]

theorem mem_log_exec (doi : Bool) (r : Run) (u : Nat) {x : Nat × Event} (h : x ∈ r.2) :
    x ∈ (exec doi r u).2 := by
  unfold exec
  split
  · exact h
  · exact List.mem_append_left _ h

theorem mem_log_runFrom (doi : Bool) (sched : List Nat) :
    ∀ (r : Run) {x : Nat × Event}, x ∈ r.2 → x ∈ (runFrom doi r sched).2 := by
  induction sched with
  | nil => intro r x h; exact h
  | cons u us ih => intro r x h; exact ih _ (mem_log_exec doi r u h)

theorem InstTrail.loaded_initializing {doi : Bool} {t : Nat} {log : List (Nat × Event)} {pc : Pc}
    (h : InstTrail doi t log pc) (hl : (t, Event.load State.Initializing) ∈ log) :
    pc = Pc.instance_wait ∨ pc = Pc.instance_ref ∨ pc = Pc.undefined ∨ ∃ q, pc = Pc.returned q := by
  rcases h with ⟨_, hno⟩ | ⟨s, hs1, hs2, hs3⟩
  · exact absurd hl (hno _)
  · have := hs2 _ hl
    subst this
    cases pc <;> simp [Pc.afterLoad] at hs3 <;> simp

/-- On an initialized slot, a thread that loaded `Initializing` has returned
the stored payload after two turns. -/
theorem Inv.waiter_returns {c0 : Config} {w : Nat} {a : Args} {r : Run} (doi : Bool)
    (h : Inv c0 w a r) (hs : r.1.m_state = State.Initialized) {t : Nat} {pc : Pc}
    (hpc : r.1.threads[t]? = some pc) (htr : InstTrail doi t r.2 pc)
    (hl : (t, Event.load State.Initializing) ∈ r.2) :
    (Singleton.runFrom doi r [t, t]).1.threads[t]? = some (Pc.returned (Instrumented.construct a)) := by
  obtain ⟨⟨s, st, k, ths⟩, log⟩ := r
  simp only at hs hpc htr hl
  subst hs
  obtain ⟨h1, h2, h3, h4, h5, h6, h7, h8⟩ := Inv.initialized_iff.1 h
  subst h6
  have hset := h8 t pc hpc
  apply runFrom_two_reads
  rcases htr.loaded_initializing hl with rfl | rfl | rfl | ⟨q, rfl⟩
  · exact Or.inl hpc
  · exact Or.inr (Or.inl hpc)
  · simp [Pc.settled] at hset
  · simp [Pc.settled] at hset
    subst hset
    exact Or.inr (Or.inr hpc)

/-- C9: from a fresh slot under either policy, let thread `w` run `init(v)`
and win the compare-exchange, and let thread `t` run `instance()` and load
`Initializing`.  Then along every schedule `t` has not thrown; while `m_state`
is `Initializing` it stands at the wait and has no step; whenever it has
returned, `m_state` is `Initialized`, `w` has made its store, the reference
denotes the stored payload built from `v`, and exactly one construction, the
value construction of `w`, has happened.  Every such run has a continuation
in which `t` returns that payload. -/
theorem instance_waits_for_construction (doi : Bool) (c0 : Config) (hf : Fresh c0) (w t : Nat)
    (v : Int) (hw : c0.threads[w]? = some (Pc.init_cas (Args.value v)))
    (ht : c0.threads[t]? = some Pc.instance_load) (sched : List Nat)
    (hwon : (w, Event.cas true) ∈ (run doi c0 sched).2)
    (hload : (t, Event.load State.Initializing) ∈ (run doi c0 sched).2) :
    (∀ e, (run doi c0 sched).1.threads[t]? ≠ some (Pc.threw e)) ∧
    ((run doi c0 sched).1.m_state = State.Initializing →
      (run doi c0 sched).1.threads[t]? = some Pc.instance_wait ∧
      step doi (run doi c0 sched).1 t = none) ∧
    (∀ q, (run doi c0 sched).1.threads[t]? = some (Pc.returned q) →
      q = Instrumented.construct (Args.value v) ∧
      (run doi c0 sched).1.m_state = State.Initialized ∧
      (run doi c0 sched).1.storage = some q ∧
      (w, Event.store) ∈ (run doi c0 sched).2 ∧
      constructions (run doi c0 sched).2 = 1 ∧
      (run doi c0 sched).1.counts = Counters.construct (Args.value v) c0.counts) ∧
    (∃ more, (run doi c0 (sched ++ more)).1.threads[t]? =
      some (Pc.returned (Instrumented.construct (Args.value v)))) := by
  obtain ⟨w1, a, hi⟩ := hf.run_inv doi sched
  obtain ⟨rfl, hne, ho⟩ := hi.winner hwon
  have ha : a = Args.value v := by
    rcases ho with ho | ⟨ho, _⟩
    · rw [hw] at ho
      cases ho
      rfl
    · rw [hw] at ho
      cases ho
  subst ha
  have htw : t ≠ w1 := ne_of_getElem?_ne ht hw (by simp)
  have h0 : InstTrail doi t ((c0, []) : Run).2 Pc.instance_load := Or.inl ⟨rfl, by simp⟩
  obtain ⟨pc1, hp1, htr⟩ := InstTrail.kept_along sched
    (show ((c0, []) : Run).1.threads[t]? = some Pc.instance_load from ht) h0
  have hrun : runFrom doi (c0, []) sched = run doi c0 sched := rfl
  rw [hrun] at hp1 htr
  have hcl := htr.loaded_initializing hload
  refine ⟨?_, ?_, ?_, ?_⟩
  · intro e he
    rw [hp1] at he
    cases he
    rcases hcl with h | h | h | ⟨q, h⟩ <;> cases h
  · intro hs
    have hwait : pc1 = Pc.instance_wait := by
      generalize run doi c0 sched = r at hi hp1 hs
      obtain ⟨⟨s, st, k, ths⟩, log⟩ := r
      simp only at hs hp1
      subst hs
      obtain ⟨h1, h2, h3, h4, h5⟩ := Inv.initializing_iff.1 hi
      have hp := h5 t pc1 htw hp1
      rcases hcl with h | h | h | ⟨q, h⟩
      · exact h
      · subst h; simp [Pc.pending] at hp
      · subst h; simp [Pc.pending] at hp
      · subst h; simp [Pc.pending] at hp
    subst hwait
    exact ⟨hp1, by simp [step, hp1, hs]⟩
  · intro q hq
    obtain ⟨g1, g2, g3, g4⟩ := hi.returned hq
    refine ⟨g3, g1, g2, g4, ?_⟩
    generalize run doi c0 sched = r at hi g1
    obtain ⟨⟨s, st, k, ths⟩, log⟩ := r
    simp only at g1
    subst g1
    obtain ⟨h1, h2, h3, h4, h5, h6, h7, h8⟩ := Inv.initialized_iff.1 hi
    exact ⟨h4, h7⟩
  · cases hs : (run doi c0 sched).1.m_state with
    | Uninitialized => exact absurd hs hne
    | Initializing =>
      refine ⟨[w1, w1, t, t], ?_⟩
      rw [run_append]
      have hsplit : runFrom doi (run doi c0 sched) [w1, w1, t, t] =
          runFrom doi (runFrom doi (run doi c0 sched) [w1, w1]) [t, t] := by
        simp only [runFrom, List.foldl_cons, List.foldl_nil]
      rw [hsplit]
      have hpub := hi.publish doi hs
      obtain ⟨hi2, _⟩ := Inv.along_later doi [w1, w1] hi hne
      obtain ⟨pc2, hp2, htr2⟩ := InstTrail.kept_along [w1, w1] hp1 htr
      exact hi2.waiter_returns doi hpub hp2 htr2 (mem_log_runFrom doi _ _ hload)
    | Initialized =>
      refine ⟨[t, t], ?_⟩
      rw [run_append]
      exact hi.waiter_returns doi hs hp1 htr hload

theorem instance_waits_for_construction_witness :
    (run false (freshSlot [Pc.init_cas (Args.value 5), Pc.instance_load, Pc.instance_load])
        [0, 1, 2, 1, 0, 2, 0, 1, 2, 1, 2]).1.threads[1]? = some (Pc.returned ⟨⟨5⟩⟩) ∧
    constructions
      (run false (freshSlot [Pc.init_cas (Args.value 5), Pc.instance_load, Pc.instance_load])
        [0, 1, 2, 1, 0, 2, 0, 1, 2, 1, 2]).2 = 1 :=
  ⟨by decide,
    ((instance_waits_for_construction false
      (freshSlot [Pc.init_cas (Args.value 5), Pc.instance_load, Pc.instance_load])
      (by simp [Fresh, freshSlot, Pc.isEntry]) 0 1 5 rfl rfl
      [0, 1, 2, 1, 0, 2, 0, 1, 2, 1, 2] (by decide) (by decide)).2.2.1 ⟨⟨5⟩⟩ (by decide)).2.2.2.2.1⟩

theorem length_exec (doi : Bool) (r : Run) (u : Nat) :
    (exec doi r u).1.threads.length = r.1.threads.length := by
  cases hstep : step doi r.1 u with
  | none => rw [exec_of_step_none hstep]
  | some ec =>
    obtain ⟨e, c1⟩ := ec
    obtain ⟨pc1, hc1⟩ := step_threads hstep
    obtain ⟨c, log⟩ := r
    rw [exec_of_step hstep]
    simp [hc1]

theorem length_runFrom (doi : Bool) (sched : List Nat) :
    ∀ (r : Run), (runFrom doi r sched).1.threads.length = r.1.threads.length := by
  induction sched with
  | nil => intro r; rfl
  | cons u us ih =>
    intro r
    have := ih (exec doi r u)
    rw [length_exec] at this
    exact this

/-- Under the auto policy a thread that entered `instance()` has not thrown. -/
theorem InstTrail.not_threw {t : Nat} {log : List (Nat × Event)} {pc : Pc}
    (h : InstTrail true t log pc) (e : Error) : pc ≠ Pc.threw e := by
  rintro rfl
  rcases h with ⟨h, _⟩ | ⟨s, _, _, hs3⟩
  · cases h
  · simp [Pc.afterLoad] at hs3

theorem getElem?_replicate_of_lt {n j : Nat} (x : Pc) (h : j < n) :
    (List.replicate n x)[j]? = some x := by
  simp [List.getElem?_replicate, h]

theorem count_range_append_self {n j : Nat} (h : j < n) :
    (List.range n ++ List.range n).count j = 2 := by
  have h1 : (List.range n).count j = 1 :=
    List.count_eq_one_of_mem (List.nodup_range n) (List.mem_range.2 h)
  rw [List.count_append, h1]

theorem autoSlot_fresh (n : Nat) (k : Counters) : Fresh (autoSlot n k) := by
  refine ⟨rfl, rfl, ?_⟩
  intro pc hpc
  have := List.eq_of_mem_replicate hpc
  subst this
  rfl

theorem six_steps_auto (k : Counters) (ths : List Pc) (t : Nat)
    (h : ths[t]? = some Pc.instance_load) :
    run true ⟨State.Uninitialized, none, k, ths⟩ [t, t, t, t, t, t] =
      (⟨State.Initialized, some (Instrumented.construct Args.empty),
          { k with default_ctor := incr k.default_ctor },
          ths.set t (Pc.returned (Instrumented.construct Args.empty))⟩,
        [(t, Event.load State.Uninitialized), (t, Event.cas true), (t, Event.emplace Args.empty),
          (t, Event.store), (t, Event.notify), (t, Event.deref)]) := by
  have hlt := lt_length_of_getElem? h
  simp [run, runFrom, exec, step, h, trySetInitializing, Config.goto, List.getElem?_set, hlt,
    emplace, ref, Counters.construct]

/-- C10: let `n ≥ 1` threads each call `instance()` once on a fresh slot under
the auto policy.  Along every schedule no call has thrown; and in every
configuration in which all `n` calls have returned, `m_state` is `Initialized`,
exactly one construction happened, a default construction (`default_ctor` moved
by one, all other counters as before), and all `n` calls returned the one
stored payload.  There is a schedule in which all `n` calls return. -/
theorem auto_concurrent_first_access (n : Nat) (hn : 1 ≤ n) (k : Counters) :
    (∀ sched,
      (∀ pc ∈ (run true (autoSlot n k) sched).1.threads, ∀ e, pc ≠ Pc.threw e) ∧
      ((∀ pc ∈ (run true (autoSlot n k) sched).1.threads, ∃ q, pc = Pc.returned q) →
        (run true (autoSlot n k) sched).1.m_state = State.Initialized ∧
        (run true (autoSlot n k) sched).1.storage = some (Instrumented.construct Args.empty) ∧
        (run true (autoSlot n k) sched).1.threads =
          List.replicate n (Pc.returned (Instrumented.construct Args.empty)) ∧
        constructions (run true (autoSlot n k) sched).2 = 1 ∧
        (run true (autoSlot n k) sched).1.counts =
          { k with default_ctor := incr k.default_ctor })) ∧
    (∃ sched, ∀ pc ∈ (run true (autoSlot n k) sched).1.threads, ∃ q, pc = Pc.returned q) := by
  have hlen : ∀ sched, (run true (autoSlot n k) sched).1.threads.length = n := by
    intro sched
    have := length_runFrom true sched (autoSlot n k, [])
    simpa [autoSlot] using this
  have hentry : ∀ j, j < n → (autoSlot n k).threads[j]? = some Pc.instance_load :=
    fun j hj => getElem?_replicate_of_lt _ hj
  refine ⟨fun sched => ⟨?_, ?_⟩, ?_⟩
  · intro pc hpc e
    obtain ⟨j, hj⟩ := List.getElem?_of_mem hpc
    have hjn : j < n := by
      have := lt_length_of_getElem? hj
      rwa [hlen] at this
    have h0 : InstTrail true j ((autoSlot n k, []) : Run).2 Pc.instance_load :=
      Or.inl ⟨rfl, by simp⟩
    obtain ⟨pc1, hp1, htr⟩ := InstTrail.kept_along sched
      (show ((autoSlot n k, []) : Run).1.threads[j]? = some Pc.instance_load from hentry j hjn) h0
    have hrun : runFrom true (autoSlot n k, []) sched = run true (autoSlot n k) sched := rfl
    rw [hrun, hj] at hp1
    cases hp1
    exact htr.not_threw e
  · intro hall
    obtain ⟨w, a, hi⟩ := (autoSlot_fresh n k).run_inv true sched
    have h0 : ∃ pc0, (run true (autoSlot n k) sched).1.threads[0]? = some pc0 := by
      have : 0 < (run true (autoSlot n k) sched).1.threads.length := by
        rw [hlen]
        exact hn
      exact ⟨_, List.getElem?_eq_getElem this⟩
    obtain ⟨pc0, hp0⟩ := h0
    obtain ⟨q, rfl⟩ := hall pc0 (List.getElem?_mem hp0)
    obtain ⟨g1, g2, g3, g4⟩ := hi.returned hp0
    have hlen1 := hlen sched
    generalize run true (autoSlot n k) sched = r at hi g1 g2 hall hlen1
    obtain ⟨⟨s, st, k1, ths⟩, log⟩ := r
    simp only at g1 g2 hlen1 hall
    subst g1
    obtain ⟨h1, h2, h3, h4, h5, h6, h7, h8⟩ := Inv.initialized_iff.1 hi
    have ha : a = Args.empty := by
      rcases h3 with ho | ⟨_, ho⟩
      · have hw := lt_length_of_getElem? ho
        simp only [autoSlot, List.length_replicate] at hw
        rw [hentry w hw] at ho
        cases ho
      · exact ho
    subst ha
    refine ⟨rfl, h6, ?_, h4, ?_⟩
    · refine List.eq_replicate_iff.2 ⟨hlen1, ?_⟩
      intro pc hpc
      obtain ⟨q1, rfl⟩ := hall pc hpc
      obtain ⟨j, hj⟩ := List.getElem?_of_mem hpc
      have := h8 j _ hj
      simp [Pc.settled] at this
      rw [this]
    · rw [h7]
      rfl
  · refine ⟨[0, 0, 0, 0, 0, 0] ++ (List.range n ++ List.range n), ?_⟩
    rw [run_append]
    have h6 := six_steps_auto k (List.replicate n Pc.instance_load) 0
      (getElem?_replicate_of_lt _ hn)
    have h6a : run true (autoSlot n k) [0, 0, 0, 0, 0, 0] = _ := h6
    rw [h6a]
    have hall : ∀ (j : Nat) (pc : Pc),
        ((List.replicate n Pc.instance_load).set 0
          (Pc.returned (Instrumented.construct Args.empty)))[j]? = some pc →
        pc.reads (Instrumented.construct Args.empty) := by
      refine getElem?_set_all ?_ (Or.inr (Or.inr rfl))
      intro j pc hj
      exact Or.inl (List.eq_of_mem_replicate (List.getElem?_mem hj))
    obtain ⟨ths1, log1, e1, c1, a1, r1⟩ := runFrom_reads true _ _ (List.range n ++ List.range n)
      _ [(0, Event.load State.Uninitialized), (0, Event.cas true), (0, Event.emplace Args.empty),
          (0, Event.store), (0, Event.notify), (0, Event.deref)] hall
    rw [e1]
    intro pc hpc
    obtain ⟨j, hj⟩ := List.getElem?_of_mem hpc
    simp only at hj
    have hlen2 : ths1.length = n := by
      have := length_runFrom true (List.range n ++ List.range n)
        (⟨State.Initialized, some (Instrumented.construct Args.empty),
          { k with default_ctor := incr k.default_ctor },
          (List.replicate n Pc.instance_load).set 0
            (Pc.returned (Instrumented.construct Args.empty))⟩,
         [(0, Event.load State.Uninitialized), (0, Event.cas true),
          (0, Event.emplace Args.empty), (0, Event.store), (0, Event.notify), (0, Event.deref)])
      rw [e1] at this
      simpa using this
    have hjn : j < n := by
      have := lt_length_of_getElem? hj
      rwa [hlen2] at this
    have hj0 : ∃ pc0, ((List.replicate n Pc.instance_load).set 0
        (Pc.returned (Instrumented.construct Args.empty)))[j]? = some pc0 :=
      ⟨_, List.getElem?_eq_getElem (by simpa using hjn)⟩
    obtain ⟨pc0, hpc0⟩ := hj0
    obtain ⟨pc1, hp1, hr1⟩ := r1 j pc0 hpc0
    rw [hj] at hp1
    cases hp1
    rw [count_range_append_self hjn] at hr1
    have hr2 : pc.readRank = 2 := by
      rw [hr1]
      simp
    rcases a1 j pc hj with rfl | rfl | rfl
    · simp [Pc.readRank] at hr2
    · simp [Pc.readRank] at hr2
    · exact ⟨_, rfl⟩

theorem auto_concurrent_first_access_witness :
    (run true (autoSlot 3 Counters.reset_counts)
        [0, 1, 2, 1, 0, 2, 1, 1, 1, 1, 0, 0, 2, 2]).1.threads =
      List.replicate 3 (Pc.returned (Instrumented.construct Args.empty)) ∧
    constructions (run true (autoSlot 3 Counters.reset_counts)
        [0, 1, 2, 1, 0, 2, 1, 1, 1, 1, 0, 0, 2, 2]).2 = 1 := by
  have e : (run true (autoSlot 3 Counters.reset_counts)
      [0, 1, 2, 1, 0, 2, 1, 1, 1, 1, 0, 0, 2, 2]).1.threads =
      List.replicate 3 (Pc.returned (Instrumented.construct Args.empty)) := by decide
  have h := ((auto_concurrent_first_access 3 (by decide) Counters.reset_counts).1
    [0, 1, 2, 1, 0, 2, 1, 1, 1, 1, 0, 0, 2, 2]).2
    (by
      rw [e]
      intro pc hpc
      exact ⟨_, List.eq_of_mem_replicate hpc⟩)
  exact ⟨h.2.2.1, h.2.2.2.1⟩

/-- C14: in every slot state, under either policy, a call of `initialized()`
has a step (it never blocks and never throws), that step ends the call and
returns `true` exactly when `m_state` is `Initialized`, so `false` both when
`Uninitialized` and when `Initializing`, and it leaves `m_state`, the storage
and the counters as they are and constructs nothing. -/
theorem initialized_is_snapshot (doi : Bool) (s : State) (st : Option Instrumented)
    (k : Counters) (ths : List Pc) (t : Nat) (h : ths[t]? = some Pc.initialized_load) :
    run doi ⟨s, st, k, ths⟩ [t] =
      (⟨s, st, k, ths.set t (Pc.returned_bool (decide (s = State.Initialized)))⟩,
        [(t, Event.load s)]) ∧
    (decide (s = State.Initialized) = true ↔ s = State.Initialized) ∧
    step doi ⟨s, st, k, ths.set t (Pc.returned_bool (decide (s = State.Initialized)))⟩ t
      = none ∧
    (s = State.Uninitialized ∨ s = State.Initializing →
      (run doi ⟨s, st, k, ths⟩ [t]).1.threads[t]? = some (Pc.returned_bool false)) := by
  have hlt := lt_length_of_getElem? h
  have h1 : run doi ⟨s, st, k, ths⟩ [t] =
      (⟨s, st, k, ths.set t (Pc.returned_bool (decide (s = State.Initialized)))⟩,
        [(t, Event.load s)]) := by
    simp [run, runFrom, exec, step, h, Config.goto]
  refine ⟨h1, by simp, by simp [step, List.getElem?_set, hlt], ?_⟩
  intro hs
  rw [h1]
  rcases hs with rfl | rfl <;> simp [List.getElem?_set, hlt]

theorem initialized_is_snapshot_witness :
    run false ⟨State.Initializing, none, Counters.reset_counts,
        [Pc.unsafe_emplace (Args.value 5), Pc.initialized_load]⟩ [1] =
      (⟨State.Initializing, none, Counters.reset_counts,
          [Pc.unsafe_emplace (Args.value 5), Pc.returned_bool false]⟩,
        [(1, Event.load State.Initializing)]) :=
  (initialized_is_snapshot false State.Initializing none Counters.reset_counts
    [Pc.unsafe_emplace (Args.value 5), Pc.initialized_load] 1 rfl).1

theorem step_m_state {doi : Bool} {c c1 : Config} {t : Nat} {e : Event}
    (h : step doi c t = some (e, c1)) :
    c1.m_state = c.m_state ∨
      (c.m_state = State.Uninitialized ∧ c1.m_state = State.Initializing) ∨
      c1.m_state = State.Initialized := by
  cases hpc : c.threads[t]? with
  | none => simp [step, hpc] at h
  | some pc =>
    cases pc <;> cases hm : c.m_state <;> cases doi <;>
      simp [step, hpc, hm, trySetInitializing, Config.goto] at h <;>
      (obtain ⟨_, rfl⟩ := h; simp [hm])

theorem exec_m_state_le (doi : Bool) (r : Run) (u : Nat) :
    r.1.m_state.toNat ≤ (exec doi r u).1.m_state.toNat := by
  cases hstep : step doi r.1 u with
  | none => rw [exec_of_step_none hstep]
  | some ec =>
    obtain ⟨e, c1⟩ := ec
    obtain ⟨c, log⟩ := r
    rw [exec_of_step hstep]
    rcases step_m_state hstep with h | ⟨h1, h2⟩ | h
    · simp only [h]
      exact Nat.le_refl _
    · simp only at h1
      simp [h1, h2, State.toNat]
    · simp only [h]
      cases c.m_state <;> simp [State.toNat]

theorem runFrom_m_state_le (doi : Bool) (sched : List Nat) :
    ∀ (r : Run), r.1.m_state.toNat ≤ (runFrom doi r sched).1.m_state.toNat := by
  induction sched with
  | nil => intro r; exact Nat.le_refl _
  | cons u us ih => intro r; exact Nat.le_trans (exec_m_state_le doi r u) (ih _)

theorem runFrom_initialized (doi : Bool) (sched : List Nat) (r : Run)
    (h : r.1.m_state = State.Initialized) :
    (runFrom doi r sched).1.m_state = State.Initialized := by
  have := runFrom_m_state_le doi sched r
  rw [h] at this
  cases hm : (runFrom doi r sched).1.m_state <;> simp [hm, State.toNat] at this
  rfl

/-- On an initialized slot a call of `initialized()` that has not made its
load, or has answered `true`, stays so, and its own turn makes it answer. -/
theorem exec_initialized_caller (doi : Bool) (r : Run) (u j : Nat)
    (hs : r.1.m_state = State.Initialized)
    (hj : r.1.threads[j]? = some Pc.initialized_load ∨
      r.1.threads[j]? = some (Pc.returned_bool true)) :
    ((exec doi r u).1.threads[j]? = some Pc.initialized_load ∨
      (exec doi r u).1.threads[j]? = some (Pc.returned_bool true)) ∧
    (u = j → (exec doi r u).1.threads[j]? = some (Pc.returned_bool true)) := by
  obtain ⟨c, log⟩ := r
  simp only at hs hj
  by_cases huj : u = j
  · subst huj
    rcases hj with hj | hj
    · have hst : step doi c u = some (Event.load c.m_state,
          c.goto u (Pc.returned_bool (decide (c.m_state = State.Initialized)))) := by
        simp [step, hj]
      rw [exec_of_step hst]
      have : (c.goto u (Pc.returned_bool (decide (c.m_state = State.Initialized)))).threads[u]?
          = some (Pc.returned_bool true) := by
        simp only [Config.goto]
        rw [getElem?_set_self_of _ hj]
        simp [hs]
      exact ⟨Or.inr this, fun _ => this⟩
    · rw [exec_of_step_none (by simp [step, hj])]
      exact ⟨Or.inr hj, fun _ => hj⟩
  · refine ⟨?_, fun h => absurd h huj⟩
    cases hstep : step doi c u with
    | none =>
      rw [exec_of_step_none hstep]
      exact hj
    | some ec =>
      obtain ⟨e, c1⟩ := ec
      obtain ⟨pc1, hc1⟩ := step_threads hstep
      rw [exec_of_step hstep]
      simp only [hc1]
      rw [getElem?_set_of_ne _ (Ne.symm huj)]
      exact hj

theorem exec_answered (doi : Bool) (r : Run) (u j : Nat) (b : Bool)
    (hj : r.1.threads[j]? = some (Pc.returned_bool b)) :
    (exec doi r u).1.threads[j]? = some (Pc.returned_bool b) := by
  obtain ⟨c, log⟩ := r
  simp only at hj
  cases hstep : step doi c u with
  | none =>
    rw [exec_of_step_none hstep]
    exact hj
  | some ec =>
    obtain ⟨e, c1⟩ := ec
    obtain ⟨pc1, hc1⟩ := step_threads hstep
    rw [exec_of_step hstep]
    by_cases huj : u = j
    · subst huj
      simp [step, hj] at hstep
    · simp only [hc1]
      rw [getElem?_set_of_ne _ (Ne.symm huj)]
      exact hj

theorem runFrom_answered (doi : Bool) (sched : List Nat) (j : Nat) (b : Bool) :
    ∀ (r : Run), r.1.threads[j]? = some (Pc.returned_bool b) →
      (runFrom doi r sched).1.threads[j]? = some (Pc.returned_bool b) := by
  induction sched with
  | nil => intro r hj; exact hj
  | cons u us ih => intro r hj; exact ih _ (exec_answered doi r u j b hj)

theorem runFrom_initialized_caller (doi : Bool) (sched : List Nat) (j : Nat) :
    ∀ (r : Run), r.1.m_state = State.Initialized →
      (r.1.threads[j]? = some Pc.initialized_load ∨
        r.1.threads[j]? = some (Pc.returned_bool true)) →
      ((runFrom doi r sched).1.threads[j]? = some Pc.initialized_load ∨
        (runFrom doi r sched).1.threads[j]? = some (Pc.returned_bool true)) ∧
      (j ∈ sched → (runFrom doi r sched).1.threads[j]? = some (Pc.returned_bool true)) := by
  induction sched with
  | nil => intro r _ hj; exact ⟨hj, fun h => by simp at h⟩
  | cons u us ih =>
    intro r hs hj
    obtain ⟨h1, h2⟩ := exec_initialized_caller doi r u j hs hj
    have hs1 : (exec doi r u).1.m_state = State.Initialized :=
      runFrom_initialized doi [u] r hs
    obtain ⟨h3, h4⟩ := ih (exec doi r u) hs1 h1
    refine ⟨h3, ?_⟩
    intro hmem
    by_cases huj : u = j
    · exact runFrom_answered doi us j true _ (h2 huj)
    · have : j ∈ us := by
        simp at hmem
        rcases hmem with h | h
        · exact absurd h.symm huj
        · exact h
      exact h4 this

theorem Inv.answered_true {c0 : Config} {w : Nat} {a : Args} {r : Run} (h : Inv c0 w a r)
    {i : Nat} (hi : r.1.threads[i]? = some (Pc.returned_bool true)) :
    r.1.m_state = State.Initialized := by
  obtain ⟨⟨s, st, k, ths⟩, log⟩ := r
  cases s with
  | Uninitialized =>
    obtain ⟨h1, h2, h3, h4, h5⟩ := Inv.uninit_iff.1 h
    have := (h5 i _ hi).1
    simp [Pc.early] at this
  | Initializing =>
    obtain ⟨h1, h2, h3, h4, h5⟩ := Inv.initializing_iff.1 h
    by_cases hiw : i = w
    · subst hiw
      simp only at hi
      rcases h4 with ⟨g1, _⟩ | ⟨g1, _⟩ <;> · rw [hi] at g1; cases g1
    · have := h5 i _ hiw hi
      simp [Pc.pending] at this
  | Initialized => rfl

/-- C13: with the order `Uninitialized < Initializing < Initialized`, under
either policy no step of any call, from any configuration, moves `m_state` to
a smaller value, so along every schedule it only grows, and `Initialized` is
terminal.  From a fresh slot, once a call of `initialized()` has returned
`true`, every call of `initialized()` that makes its load later returns
`true`, whatever runs in between. -/
theorem state_is_monotonic (doi : Bool) :
    (∀ c t e c1, step doi c t = some (e, c1) → c.m_state.toNat ≤ c1.m_state.toNat) ∧
    (∀ (r : Run) sched, r.1.m_state.toNat ≤ (runFrom doi r sched).1.m_state.toNat) ∧
    (∀ (r : Run) sched, r.1.m_state = State.Initialized →
      (runFrom doi r sched).1.m_state = State.Initialized) ∧
    (∀ c0, Fresh c0 → ∀ s1 s2 (i j : Nat),
      (run doi c0 s1).1.threads[i]? = some (Pc.returned_bool true) →
      (run doi c0 s1).1.threads[j]? = some Pc.initialized_load →
      (∀ b, (run doi c0 (s1 ++ s2)).1.threads[j]? = some (Pc.returned_bool b) → b = true) ∧
      (j ∈ s2 → (run doi c0 (s1 ++ s2)).1.threads[j]? = some (Pc.returned_bool true))) := by
  refine ⟨?_, fun r sched => runFrom_m_state_le doi sched r,
    fun r sched h => runFrom_initialized doi sched r h, ?_⟩
  · intro c t e c1 h
    have := exec_m_state_le doi (c, []) t
    rw [exec_of_step h] at this
    exact this
  · intro c0 hf s1 s2 i j hi hj
    obtain ⟨w, a, hinv⟩ := hf.run_inv doi s1
    have hs := hinv.answered_true hi
    obtain ⟨h1, h2⟩ := runFrom_initialized_caller doi s2 j (run doi c0 s1) hs (Or.inl hj)
    rw [run_append]
    refine ⟨?_, h2⟩
    intro b hb
    rcases h1 with h1 | h1
    · rw [h1] at hb
      cases hb
    · rw [h1] at hb
      cases hb
      rfl

theorem state_is_monotonic_witness :
    (run false (freshSlot [Pc.init_cas (Args.value 42), Pc.initialized_load, Pc.instance_load,
        Pc.initialized_load]) ([0, 0, 0, 0, 0, 1] ++ [2, 2, 3])).1.threads[3]?
      = some (Pc.returned_bool true) :=
  ((state_is_monotonic false).2.2.2
    (freshSlot [Pc.init_cas (Args.value 42), Pc.initialized_load, Pc.instance_load,
      Pc.initialized_load]) (by simp [Fresh, freshSlot, Pc.isEntry])
    [0, 0, 0, 0, 0, 1] [2, 2, 3] 1 3 (by decide) (by decide)).2 (by decide)

theorem step_storage {doi : Bool} {c c1 : Config} {t : Nat} {e : Event}
    (h : step doi c t = some (e, c1)) (hne : c1.storage ≠ c.storage) :
    ∃ a, c.threads[t]? = some (Pc.unsafe_emplace a) ∧ e = Event.emplace a := by
  cases hpc : c.threads[t]? with
  | none => simp [step, hpc] at h
  | some pc =>
    cases pc <;> cases hm : c.m_state <;> cases doi <;>
      simp [step, hpc, hm, trySetInitializing, Config.goto] at h <;>
      obtain ⟨rfl, rfl⟩ := h <;>
      first
        | exact absurd rfl hne
        | exact ⟨_, rfl, rfl⟩

theorem Inv.winner_mem {c0 : Config} {w : Nat} {a : Args} {r : Run} (h : Inv c0 w a r)
    (hs : r.1.m_state ≠ State.Uninitialized) : (w, Event.cas true) ∈ r.2 := by
  obtain ⟨⟨s, st, k, ths⟩, log⟩ := r
  have key : casWins log = 1 → (∀ j, (j, Event.cas true) ∈ log → j = w) →
      (w, Event.cas true) ∈ log := by
    intro h1 h2
    have hpos : 0 < casWins log := by omega
    obtain ⟨x, hx, hp⟩ := List.countP_pos_iff.1 hpos
    obtain ⟨j, e⟩ := x
    simp at hp
    subst hp
    have := h2 j hx
    subst this
    exact hx
  cases s with
  | Uninitialized => exact absurd rfl hs
  | Initializing =>
    obtain ⟨h1, h2, _⟩ := Inv.initializing_iff.1 h
    exact key h1 h2
  | Initialized =>
    obtain ⟨h1, h2, _⟩ := Inv.initialized_iff.1 h
    exact key h1 h2

theorem Inv.at_emplace {c0 : Config} {w : Nat} {a : Args} {r : Run} (h : Inv c0 w a r)
    {t : Nat} {x : Args} (ht : r.1.threads[t]? = some (Pc.unsafe_emplace x)) :
    r.1.m_state = State.Initializing ∧ t = w ∧ x = a ∧ r.1.storage = none := by
  obtain ⟨⟨s, st, k, ths⟩, log⟩ := r
  cases s with
  | Uninitialized =>
    obtain ⟨h1, h2, h3, h4, h5⟩ := Inv.uninit_iff.1 h
    have := (h5 t _ ht).1
    simp [Pc.early] at this
  | Initializing =>
    obtain ⟨h1, h2, h3, h4, h5⟩ := Inv.initializing_iff.1 h
    by_cases htw : t = w
    · subst htw
      simp only at ht
      rcases h4 with ⟨g1, g2, _⟩ | ⟨g1, _⟩
      · rw [ht] at g1
        cases g1
        exact ⟨rfl, rfl, rfl, g2⟩
      · rw [ht] at g1
        cases g1
    · have := h5 t _ htw ht
      simp [Pc.pending] at this
  | Initialized =>
    obtain ⟨h1, h2, h3, h4, h5, h6, h7, h8⟩ := Inv.initialized_iff.1 h
    have := h8 t _ ht
    simp [Pc.settled] at this

theorem Inv.at_deref {c0 : Config} {w : Nat} {a : Args} {r : Run} (h : Inv c0 w a r)
    {t : Nat} (ht : r.1.threads[t]? = some Pc.instance_ref ∨
      r.1.threads[t]? = some Pc.unsafe_ref) :
    r.1.m_state = State.Initialized ∧ r.1.storage = some (Instrumented.construct a) := by
  obtain ⟨⟨s, st, k, ths⟩, log⟩ := r
  cases s with
  | Uninitialized =>
    obtain ⟨h1, h2, h3, h4, h5⟩ := Inv.uninit_iff.1 h
    rcases ht with ht | ht <;>
    · have := (h5 t _ ht).1
      simp [Pc.early] at this
  | Initializing =>
    obtain ⟨h1, h2, h3, h4, h5⟩ := Inv.initializing_iff.1 h
    by_cases htw : t = w
    · subst htw
      simp only at ht
      rcases ht with ht | ht <;> rcases h4 with ⟨g1, _⟩ | ⟨g1, _⟩ <;>
      · rw [ht] at g1
        cases g1
    · rcases ht with ht | ht <;>
      · have := h5 t _ htw ht
        simp [Pc.pending] at this
  | Initialized =>
    obtain ⟨h1, h2, h3, h4, h5, h6, h7, h8⟩ := Inv.initialized_iff.1 h
    exact ⟨rfl, h6⟩

theorem Inv.not_undefined {c0 : Config} {w : Nat} {a : Args} {r : Run} (h : Inv c0 w a r)
    (t : Nat) : r.1.threads[t]? ≠ some Pc.undefined := by
  intro ht
  obtain ⟨⟨s, st, k, ths⟩, log⟩ := r
  cases s with
  | Uninitialized =>
    obtain ⟨h1, h2, h3, h4, h5⟩ := Inv.uninit_iff.1 h
    have := (h5 t _ ht).1
    simp [Pc.early] at this
  | Initializing =>
    obtain ⟨h1, h2, h3, h4, h5⟩ := Inv.initializing_iff.1 h
    by_cases htw : t = w
    · subst htw
      simp only at ht
      rcases h4 with ⟨g1, _⟩ | ⟨g1, _⟩ <;>
      · rw [ht] at g1
        cases g1
    · have := h5 t _ htw ht
      simp [Pc.pending] at this
  | Initialized =>
    obtain ⟨h1, h2, h3, h4, h5, h6, h7, h8⟩ := Inv.initialized_iff.1 h
    have := h8 t _ ht
    simp [Pc.settled] at this

/-- C16: in every configuration reached from a fresh slot, under either
policy: (i) while `m_state` is `Uninitialized` the storage is empty; (ii) a step
that writes the storage is the `emplace` of the one thread whose
compare-exchange succeeded, made while `m_state` is `Initializing` and the
storage is empty; (iii) when `m_state` is `Initialized` the storage holds the
payload built from the arguments of the call of that thread, which has made
its store.  So no call ever dereferences an empty storage, a thread about to
dereference in `ref()` finds the payload, and a call that returned did so with
`m_state` being `Initialized` and returned the stored payload. -/
theorem publication_safety (doi : Bool) (c0 : Config) (hf : Fresh c0) (sched : List Nat) :
    ((run doi c0 sched).1.m_state = State.Uninitialized →
      (run doi c0 sched).1.storage = none) ∧
    (∀ t e c1, step doi (run doi c0 sched).1 t = some (e, c1) →
      c1.storage ≠ (run doi c0 sched).1.storage →
        (t, Event.cas true) ∈ (run doi c0 sched).2 ∧
        (∀ j, (j, Event.cas true) ∈ (run doi c0 sched).2 → j = t) ∧
        (run doi c0 sched).1.m_state = State.Initializing ∧
        (run doi c0 sched).1.storage = none ∧
        ∃ a, e = Event.emplace a ∧ Origin c0 t a) ∧
    ((run doi c0 sched).1.m_state = State.Initialized →
      ∃ w a, (w, Event.cas true) ∈ (run doi c0 sched).2 ∧
        (∀ j, (j, Event.cas true) ∈ (run doi c0 sched).2 → j = w) ∧
        (w, Event.store) ∈ (run doi c0 sched).2 ∧ Origin c0 w a ∧
        constructions (run doi c0 sched).2 = 1 ∧
        (run doi c0 sched).1.storage = some (Instrumented.construct a)) ∧
    (∀ (j : Nat), (run doi c0 sched).1.threads[j]? ≠ some Pc.undefined) ∧
    (∀ (j : Nat), (run doi c0 sched).1.threads[j]? = some Pc.instance_ref ∨
        (run doi c0 sched).1.threads[j]? = some Pc.unsafe_ref →
      ∃ p, (run doi c0 sched).1.storage = some p ∧
        (run doi c0 (sched ++ [j])).1.threads[j]? = some (Pc.returned p)) ∧
    (∀ (j : Nat) q, (run doi c0 sched).1.threads[j]? = some (Pc.returned q) →
      (run doi c0 sched).1.m_state = State.Initialized ∧
      (run doi c0 sched).1.storage = some q) := by
  obtain ⟨w, a, hi⟩ := hf.run_inv doi sched
  refine ⟨?_, ?_, ?_, hi.not_undefined, ?_, ?_⟩
  · intro hs
    generalize run doi c0 sched = r at hi hs
    obtain ⟨⟨s, st, k, ths⟩, log⟩ := r
    simp only at hs
    subst hs
    exact (Inv.uninit_iff.1 hi).1
  · intro t e c1 hstep hne
    obtain ⟨x, hx, he⟩ := step_storage hstep hne
    obtain ⟨g1, g2, g3, g4⟩ := hi.at_emplace hx
    subst g2 g3
    have hs : (run doi c0 sched).1.m_state ≠ State.Uninitialized := by
      rw [g1]
      simp
    have hmem := hi.winner_mem hs
    obtain ⟨_, _, ho⟩ := hi.winner hmem
    refine ⟨hmem, ?_, g1, g4, x, he, ho⟩
    intro j hj
    exact ((hi.winner hj).1).symm
  · intro hs
    have hne : (run doi c0 sched).1.m_state ≠ State.Uninitialized := by
      rw [hs]
      simp
    have hmem := hi.winner_mem hne
    refine ⟨w, a, hmem, fun j hj => ((hi.winner hj).1).symm, ?_⟩
    generalize run doi c0 sched = r at hi hs
    obtain ⟨⟨s, st, k, ths⟩, log⟩ := r
    simp only at hs
    subst hs
    obtain ⟨h1, h2, h3, h4, h5, h6, h7, h8⟩ := Inv.initialized_iff.1 hi
    exact ⟨h5, h3, h4, h6⟩
  · intro j hj
    obtain ⟨g1, g2⟩ := hi.at_deref hj
    refine ⟨_, g2, ?_⟩
    rw [run_append]
    generalize run doi c0 sched = r at hj g2
    obtain ⟨c, log⟩ := r
    simp only at hj g2
    rcases hj with hj | hj
    · have hst : step doi c j = some (Event.deref, c.goto j (ref c.storage)) := by
        simp [step, hj]
      simp only [runFrom, List.foldl_cons, List.foldl_nil]
      rw [exec_of_step hst]
      simp only [Config.goto]
      rw [getElem?_set_self_of _ hj, g2]
      rfl
    · have hst : step doi c j = some (Event.deref, c.goto j (ref c.storage)) := by
        simp [step, hj]
      simp only [runFrom, List.foldl_cons, List.foldl_nil]
      rw [exec_of_step hst]
      simp only [Config.goto]
      rw [getElem?_set_self_of _ hj, g2]
      rfl
  · intro j q hq
    obtain ⟨g1, g2, _, _⟩ := hi.returned hq
    exact ⟨g1, g2⟩

theorem publication_safety_witness :
    (run true (freshSlot [Pc.instance_load, Pc.init_cas (Args.value 7), Pc.instance_load])
        [0, 2]).1.storage = none ∧
    ∀ (j : Nat),
      (run true (freshSlot [Pc.instance_load, Pc.init_cas (Args.value 7), Pc.instance_load])
        [0, 2, 1, 0, 2, 1, 1, 1, 2, 1, 0, 2, 2, 0, 2]).1.threads[j]? ≠ some Pc.undefined :=
  ⟨(publication_safety true
      (freshSlot [Pc.instance_load, Pc.init_cas (Args.value 7), Pc.instance_load])
      (by simp [Fresh, freshSlot, Pc.isEntry]) [0, 2]).1 (by decide),
    (publication_safety true
      (freshSlot [Pc.instance_load, Pc.init_cas (Args.value 7), Pc.instance_load])
      (by simp [Fresh, freshSlot, Pc.isEntry])
      [0, 2, 1, 0, 2, 1, 1, 1, 2, 1, 0, 2, 2, 0, 2]).2.2.2.1⟩

/-- A relation between the log and the program point of one thread that each
step of that thread keeps, and that does not look at the entries of other
threads, holds along every schedule. -/
theorem local_along {doi : Bool} {t : Nat} (P : List (Nat × Event) → Pc → Prop)
    (hown : ∀ (c c1 : Config) (log : List (Nat × Event)) (pc : Pc) (e : Event),
      c.threads[t]? = some pc → P log pc → step doi c t = some (e, c1) →
        ∃ pc1, c1.threads[t]? = some pc1 ∧ P (log ++ [(t, e)]) pc1)
    (hother : ∀ (log : List (Nat × Event)) (pc : Pc) (u : Nat) (e : Event),
      u ≠ t → P log pc → P (log ++ [(u, e)]) pc)
    (sched : List Nat) :
    ∀ (r : Run) (pc : Pc), r.1.threads[t]? = some pc → P r.2 pc →
      ∃ pc1, (runFrom doi r sched).1.threads[t]? = some pc1 ∧ P (runFrom doi r sched).2 pc1 := by
  induction sched with
  | nil => intro r pc hpc h; exact ⟨pc, hpc, h⟩
  | cons u us ih =>
    intro r pc hpc h
    obtain ⟨c, log⟩ := r
    simp only at hpc h
    have key : ∃ pc1, (exec doi (c, log) u).1.threads[t]? = some pc1 ∧
        P (exec doi (c, log) u).2 pc1 := by
      cases hstep : step doi c u with
      | none =>
        rw [exec_of_step_none hstep]
        exact ⟨pc, hpc, h⟩
      | some ec =>
        obtain ⟨e, c1⟩ := ec
        rw [exec_of_step hstep]
        by_cases hut : u = t
        · subst hut
          exact hown c c1 log pc e hpc h hstep
        · obtain ⟨pc1, hc1⟩ := step_threads hstep
          refine ⟨pc, ?_, hother log pc u e hut h⟩
          simp only [hc1]
          rw [getElem?_set_of_ne _ (Ne.symm hut)]
          exact hpc
    obtain ⟨pc1, h1, h2⟩ := key
    exact ih _ pc1 h1 h2

theorem mem_snoc_other {log : List (Nat × Event)} {t u : Nat} (e x : Event) (h : u ≠ t) :
    (t, x) ∈ log ++ [(u, e)] ↔ (t, x) ∈ log := by
  simp [Ne.symm h]

theorem InitTrail.kept_init (doi : Bool) (a : Args) (t : Nat) (sched : List Nat) (r : Run)
    (pc : Pc) (hpc : r.1.threads[t]? = some pc) (h : InitTrail a t r.2 pc) :
    ∃ pc1, (runFrom doi r sched).1.threads[t]? = some pc1 ∧
      InitTrail a t (runFrom doi r sched).2 pc1 := by
  refine local_along (InitTrail a t) ?_ ?_ sched r pc hpc h
  · intro c c1 log pc e hpc h hstep
    rcases h with ⟨rfl, hno⟩ | ⟨hw, hp⟩ | ⟨_, _, rfl⟩
    · cases hm : c.m_state <;>
        simp [step, hpc, hm, trySetInitializing, Config.goto] at hstep <;>
        obtain ⟨rfl, rfl⟩ := hstep
      · exact ⟨_, getElem?_set_self_of _ hpc, Or.inr (Or.inl ⟨by simp, by simp [Pc.wonPath]⟩)⟩
      · refine ⟨_, getElem?_set_self_of _ hpc, Or.inr (Or.inr ⟨?_, by simp, rfl⟩)⟩
        intro hm
        simp at hm
        exact hno _ hm
      · refine ⟨_, getElem?_set_self_of _ hpc, Or.inr (Or.inr ⟨?_, by simp, rfl⟩)⟩
        intro hm
        simp at hm
        exact hno _ hm
    · cases pc <;> simp [Pc.wonPath] at hp <;>
        simp [step, hpc, Config.goto] at hstep <;>
        obtain ⟨rfl, rfl⟩ := hstep <;>
        refine ⟨_, getElem?_set_self_of _ hpc,
          Or.inr (Or.inl ⟨List.mem_append_left _ hw, ?_⟩)⟩
      · rfl
      · rfl
      · rfl
      · cases c.storage <;> rfl
    · simp [step, hpc] at hstep
  · intro log pc u e hut h
    rcases h with ⟨rfl, hno⟩ | ⟨hw, hp⟩ | ⟨h1, h2, rfl⟩
    · exact Or.inl ⟨rfl, fun x hx => hno x ((mem_snoc_other e x hut).1 hx)⟩
    · exact Or.inr (Or.inl ⟨(mem_snoc_other e _ hut).2 hw, hp⟩)
    · exact Or.inr (Or.inr ⟨fun hx => h1 ((mem_snoc_other e _ hut).1 hx),
        (mem_snoc_other e _ hut).2 h2, rfl⟩)

theorem ExplicitTrail.kept_explicit (t : Nat) (sched : List Nat) (r : Run)
    (pc : Pc) (hpc : r.1.threads[t]? = some pc) (h : ExplicitTrail t r.2 pc) :
    ∃ pc1, (runFrom false r sched).1.threads[t]? = some pc1 ∧
      ExplicitTrail t (runFrom false r sched).2 pc1 := by
  refine local_along (ExplicitTrail t) ?_ ?_ sched r pc hpc h
  · intro c c1 log pc e hpc h hstep
    obtain ⟨h1, h2⟩ := h
    have hlog : ∀ (e : Event), (∀ b, e ≠ Event.cas b) →
        ∀ b, (t, Event.cas b) ∉ log ++ [(t, e)] := by
      intro e he b hm
      simp at hm
      rcases hm with hm | hm
      · exact h1 b hm
      · exact he b hm.symm
    cases pc <;> simp [Pc.explicitRead] at h2 <;> cases hm : c.m_state <;>
      simp [step, hpc, hm, Config.goto] at hstep <;>
      obtain ⟨rfl, rfl⟩ := hstep <;>
      refine ⟨_, getElem?_set_self_of _ hpc, hlog _ (by simp), ?_⟩ <;>
      first
        | rfl
        | (cases c.storage <;> rfl)
  · intro log pc u e hut h
    exact ⟨fun b hx => h.1 b ((mem_snoc_other e _ hut).1 hx), h.2⟩

theorem Pc.readRank_le (pc : Pc) : pc.readRank ≤ 2 := by
  cases pc <;> simp [Pc.readRank]

/-- On an initialized slot reached from a fresh one, a turn of any thread
leaves a reader a reader, and its own turn brings it one step on. -/
theorem Inv.reader_exec {c0 : Config} {w : Nat} {a : Args} {r : Run} (doi : Bool)
    (h : Inv c0 w a r) (hs : r.1.m_state = State.Initialized) (u : Nat) {t : Nat} {pc : Pc}
    (hpc : r.1.threads[t]? = some pc) (hr : pc.reads (Instrumented.construct a)) :
    ∃ pc1, (Singleton.exec doi r u).1.threads[t]? = some pc1 ∧
      pc1.reads (Instrumented.construct a) ∧
      pc1.readRank = min 2 (pc.readRank + (if u = t then 1 else 0)) := by
  obtain ⟨⟨s, st, k, ths⟩, log⟩ := r
  simp only at hs hpc
  subst hs
  obtain ⟨h1, h2, h3, h4, h5, h6, h7, h8⟩ := Inv.initialized_iff.1 h
  subst h6
  by_cases hut : u = t
  · subst hut
    rcases hr with rfl | rfl | rfl
    · rw [exec_of_step (by simp [step, hpc, Config.goto]; exact ⟨rfl, rfl⟩)]
      exact ⟨Pc.instance_ref, getElem?_set_self_of _ hpc, Or.inr (Or.inl rfl),
        by simp [Pc.readRank]⟩
    · rw [exec_of_step (by simp [step, hpc, Config.goto, ref]; exact ⟨rfl, rfl⟩)]
      exact ⟨Pc.returned (Instrumented.construct a), getElem?_set_self_of _ hpc,
        Or.inr (Or.inr rfl), by simp [Pc.readRank]⟩
    · rw [exec_of_step_none (by simp [step, hpc])]
      exact ⟨_, hpc, Or.inr (Or.inr rfl), by simp [Pc.readRank]⟩
  · have hrk : pc.readRank = min 2 (pc.readRank + (if u = t then 1 else 0)) := by
      have := pc.readRank_le
      simp [hut]
      omega
    cases hstep : step doi ⟨State.Initialized, some (Instrumented.construct a), k, ths⟩ u with
    | none =>
      rw [exec_of_step_none hstep]
      exact ⟨pc, hpc, hr, hrk⟩
    | some ec =>
      obtain ⟨e, c1⟩ := ec
      obtain ⟨pc1, hc1⟩ := step_threads hstep
      rw [exec_of_step hstep]
      refine ⟨pc, ?_, hr, hrk⟩
      simp only [hc1]
      rw [getElem?_set_of_ne _ (Ne.symm hut)]
      exact hpc

theorem Inv.reader_along {c0 : Config} {w : Nat} {a : Args} (doi : Bool) (sched : List Nat)
    {t : Nat} :
    ∀ {r : Run} {pc : Pc}, Inv c0 w a r → r.1.m_state = State.Initialized →
      r.1.threads[t]? = some pc → pc.reads (Instrumented.construct a) →
      ∃ pc1, (Singleton.runFrom doi r sched).1.threads[t]? = some pc1 ∧
        pc1.reads (Instrumented.construct a) ∧
        pc1.readRank = min 2 (pc.readRank + sched.count t) := by
  induction sched with
  | nil =>
    intro r pc _ _ hpc hr
    refine ⟨pc, hpc, hr, ?_⟩
    have := pc.readRank_le
    simp
    omega
  | cons u us ih =>
    intro r pc h hs hpc hr
    obtain ⟨pc1, g1, g2, g3⟩ := h.reader_exec doi hs u hpc hr
    obtain ⟨hi1, hs1⟩ := Inv.exec_initialized doi u h hs
    obtain ⟨pc2, k1, k2, k3⟩ := ih hi1 hs1 g1 g2
    refine ⟨pc2, k1, k2, ?_⟩
    rw [k3, g3, List.count_cons]
    by_cases hut : u = t
    · subst hut
      simp
      omega
    · have : ¬ (u == t) = true := by simpa using hut
      simp [hut]
      omega

theorem initRaceSlot_fresh (a b : Args) (n : Nat) (k : Counters) :
    Fresh (initRaceSlot a b n k) := by
  refine ⟨rfl, rfl, ?_⟩
  intro pc hpc
  simp only [initRaceSlot, List.mem_cons] at hpc
  rcases hpc with rfl | rfl | hpc
  · rfl
  · rfl
  · have := List.eq_of_mem_replicate hpc
    subst this
    rfl

theorem Inv.initialized_facts {c0 : Config} {w : Nat} {a : Args} {r : Run} (h : Inv c0 w a r)
    (hs : r.1.m_state = State.Initialized) :
    r.1.storage = some (Instrumented.construct a) ∧
      r.1.counts = Counters.construct a c0.counts ∧ constructions r.2 = 1 := by
  obtain ⟨⟨s, st, k, ths⟩, log⟩ := r
  simp only at hs
  subst hs
  obtain ⟨h1, h2, h3, h4, h5, h6, h7, h8⟩ := Inv.initialized_iff.1 h
  exact ⟨h6, h7, h4⟩

theorem Inv.threw_already {c0 : Config} {w : Nat} {a : Args} {r : Run} (h : Inv c0 w a r)
    {i : Nat} (hi : r.1.threads[i]? = some (Pc.threw Error.AlreadyInitialized)) :
    r.1.m_state ≠ State.Uninitialized := by
  intro hs
  obtain ⟨⟨s, st, k, ths⟩, log⟩ := r
  simp only at hs
  subst hs
  obtain ⟨h1, h2, h3, h4, h5⟩ := Inv.uninit_iff.1 h
  have := (h5 i _ hi).1
  simp [Pc.early] at this

/-- The winner of the compare-exchange, once its call is over, has returned
the stored payload, built from its arguments, and `m_state` is `Initialized`. -/
theorem Inv.winner_over {c0 : Config} {w : Nat} {a : Args} {r : Run} (h : Inv c0 w a r)
    (hmem : (w, Event.cas true) ∈ r.2) {x : Args} {pc : Pc}
    (hpc : r.1.threads[w]? = some pc) (htr : InitTrail x w r.2 pc) (hov : pc.over = true) :
    pc = Pc.returned (Instrumented.construct a) ∧ r.1.m_state = State.Initialized := by
  rcases htr with ⟨rfl, _⟩ | ⟨_, hp⟩ | ⟨hno, _, _⟩
  · simp [Pc.over] at hov
  · cases pc <;> simp [Pc.wonPath] at hp <;> simp [Pc.over] at hov
    · obtain ⟨g1, g2, g3, g4⟩ := h.returned hpc
      subst g3
      exact ⟨rfl, g1⟩
    · exact absurd hpc (h.not_undefined w)
  · exact absurd hmem hno

/-- A thread that entered `init` and did not win the compare-exchange, once its
call is over, has thrown `AlreadyInitialized`. -/
theorem InitTrail.loser_over {x : Args} {l : Nat} {log : List (Nat × Event)} {pc : Pc}
    (htr : InitTrail x l log pc) (hno : (l, Event.cas true) ∉ log) (hov : pc.over = true) :
    pc = Pc.threw Error.AlreadyInitialized := by
  rcases htr with ⟨rfl, _⟩ | ⟨hw, _⟩ | ⟨_, _, rfl⟩
  · simp [Pc.over] at hov
  · exact absurd hw hno
  · rfl

/-- C12: let thread 0 call `init(v1)` and thread 1 call `init(v2)` on a fresh
slot under the explicit policy, next to any number of `instance()` callers.
In every configuration in which both `init` calls are over, exactly one of
them threw `AlreadyInitialized` and the other returned, exactly one
construction happened, a value construction with the value of the call that
returned, `m_state` is `Initialized`, and the storage holds that payload.  A
call of `instance()` that makes its load after that never throws, leaves the
storage as it is, is over after two turns, and returns that same payload.
Both outcomes occur. -/
theorem double_init_race (v1 v2 : Int) (n : Nat) (k : Counters) :
    (∀ sched pc0 pc1,
      (run false (initRaceSlot (Args.value v1) (Args.value v2) n k) sched).1.threads[0]?
        = some pc0 →
      (run false (initRaceSlot (Args.value v1) (Args.value v2) n k) sched).1.threads[1]?
        = some pc1 →
      pc0.over = true → pc1.over = true →
      (run false (initRaceSlot (Args.value v1) (Args.value v2) n k) sched).1.m_state
        = State.Initialized ∧
      constructions (run false (initRaceSlot (Args.value v1) (Args.value v2) n k) sched).2 = 1 ∧
      (∃ v, ((v = v1 ∧ pc0 = Pc.returned (Instrumented.construct (Args.value v1)) ∧
              pc1 = Pc.threw Error.AlreadyInitialized) ∨
             (v = v2 ∧ pc0 = Pc.threw Error.AlreadyInitialized ∧
              pc1 = Pc.returned (Instrumented.construct (Args.value v2)))) ∧
        (run false (initRaceSlot (Args.value v1) (Args.value v2) n k) sched).1.storage
          = some (Instrumented.construct (Args.value v)) ∧
        (run false (initRaceSlot (Args.value v1) (Args.value v2) n k) sched).1.counts
          = { k with value_ctor := incr k.value_ctor } ∧
        ∀ (j : Nat),
          (run false (initRaceSlot (Args.value v1) (Args.value v2) n k) sched).1.threads[j]?
            = some Pc.instance_load →
          ∀ more,
            (run false (initRaceSlot (Args.value v1) (Args.value v2) n k)
              (sched ++ more)).1.storage = some (Instrumented.construct (Args.value v)) ∧
            (∀ e, (run false (initRaceSlot (Args.value v1) (Args.value v2) n k)
              (sched ++ more)).1.threads[j]? ≠ some (Pc.threw e)) ∧
            (∀ q, (run false (initRaceSlot (Args.value v1) (Args.value v2) n k)
              (sched ++ more)).1.threads[j]? = some (Pc.returned q) →
                q = Instrumented.construct (Args.value v)) ∧
            (2 ≤ more.count j →
              (run false (initRaceSlot (Args.value v1) (Args.value v2) n k)
                (sched ++ more)).1.threads[j]?
                  = some (Pc.returned (Instrumented.construct (Args.value v)))))) ∧
    ((run false (initRaceSlot (Args.value v1) (Args.value v2) n k)
        [0, 0, 0, 0, 0, 1]).1.threads[0]?
      = some (Pc.returned (Instrumented.construct (Args.value v1)))) ∧
    ((run false (initRaceSlot (Args.value v1) (Args.value v2) n k)
        [1, 1, 1, 1, 1, 0]).1.threads[1]?
      = some (Pc.returned (Instrumented.construct (Args.value v2)))) := by
  refine ⟨?_, by simp [run, runFrom, exec, step, initRaceSlot, trySetInitializing, Config.goto,
      emplace, ref], by simp [run, runFrom, exec, step, initRaceSlot, trySetInitializing,
      Config.goto, emplace, ref]⟩
  intro sched pc0 pc1 h0 h1 ho0 ho1
  have hf := initRaceSlot_fresh (Args.value v1) (Args.value v2) n k
  obtain ⟨w, a, hi⟩ := hf.run_inv false sched
  obtain ⟨p0, hp0, tr0⟩ := InitTrail.kept_init false (Args.value v1) 0 sched
    (initRaceSlot (Args.value v1) (Args.value v2) n k, []) (Pc.init_cas (Args.value v1)) rfl
    (Or.inl ⟨rfl, by simp⟩)
  obtain ⟨p1, hp1, tr1⟩ := InitTrail.kept_init false (Args.value v2) 1 sched
    (initRaceSlot (Args.value v1) (Args.value v2) n k, []) (Pc.init_cas (Args.value v2))
    (by simp [initRaceSlot])
    (Or.inl ⟨rfl, by simp⟩)
  have hrun : runFrom false (initRaceSlot (Args.value v1) (Args.value v2) n k, []) sched =
      run false (initRaceSlot (Args.value v1) (Args.value v2) n k) sched := rfl
  rw [hrun] at hp0 tr0 hp1 tr1
  rw [h0] at hp0
  rw [h1] at hp1
  cases hp0
  cases hp1
  -- somebody won
  have hne : (run false (initRaceSlot (Args.value v1) (Args.value v2) n k) sched).1.m_state
      ≠ State.Uninitialized := by
    rcases tr0 with ⟨rfl, _⟩ | ⟨hw, _⟩ | ⟨_, _, rfl⟩
    · simp [Pc.over] at ho0
    · exact (hi.winner hw).2.1
    · exact hi.threw_already h0
  have hmem := hi.winner_mem hne
  obtain ⟨_, _, ho⟩ := hi.winner hmem
  -- the winner is one of the two
  have hw01 : (w = 0 ∧ a = Args.value v1) ∨ (w = 1 ∧ a = Args.value v2) := by
    rcases ho with ho | ⟨ho, _⟩
    · match w, ho with
      | 0, ho =>
        simp [initRaceSlot] at ho
        exact Or.inl ⟨rfl, ho.symm⟩
      | 1, ho =>
        simp [initRaceSlot] at ho
        exact Or.inr ⟨rfl, ho.symm⟩
      | j + 2, ho =>
        simp only [initRaceSlot, List.getElem?_cons_succ] at ho
        have := List.eq_of_mem_replicate (List.getElem?_mem ho)
        cases this
    · obtain ⟨pw, hpw, trw⟩ := ExplicitTrail.kept_explicit w sched
        (initRaceSlot (Args.value v1) (Args.value v2) n k, []) Pc.instance_load ho
        ⟨by simp, rfl⟩
      rw [hrun] at trw
      exact absurd hmem (trw.1 true)
  have huniq : ∀ j, (j, Event.cas true) ∈
      (run false (initRaceSlot (Args.value v1) (Args.value v2) n k) sched).2 → j = w :=
    fun j hj => ((hi.winner hj).1).symm
  have hreaders : ∀ (hs : (run false (initRaceSlot (Args.value v1) (Args.value v2) n k)
        sched).1.m_state = State.Initialized) (j : Nat),
      (run false (initRaceSlot (Args.value v1) (Args.value v2) n k) sched).1.threads[j]?
        = some Pc.instance_load →
      ∀ more,
        (run false (initRaceSlot (Args.value v1) (Args.value v2) n k)
          (sched ++ more)).1.storage = some (Instrumented.construct a) ∧
        (∀ e, (run false (initRaceSlot (Args.value v1) (Args.value v2) n k)
          (sched ++ more)).1.threads[j]? ≠ some (Pc.threw e)) ∧
        (∀ q, (run false (initRaceSlot (Args.value v1) (Args.value v2) n k)
          (sched ++ more)).1.threads[j]? = some (Pc.returned q) →
            q = Instrumented.construct a) ∧
        (2 ≤ more.count j →
          (run false (initRaceSlot (Args.value v1) (Args.value v2) n k)
            (sched ++ more)).1.threads[j]? = some (Pc.returned (Instrumented.construct a))) := by
    intro hs j hj more
    rw [run_append]
    obtain ⟨hi2, _⟩ := Inv.along_later false more hi hne
    have hs2 := runFrom_initialized false more _ hs
    obtain ⟨pc2, g1, g2, g3⟩ := Inv.reader_along false more hi hs hj (Or.inl rfl)
    refine ⟨(hi2.initialized_facts hs2).1, ?_, ?_, ?_⟩
    · intro e he
      rw [g1] at he
      cases he
      rcases g2 with g | g | g <;> cases g
    · intro q hq
      rw [g1] at hq
      cases hq
      rcases g2 with g | g | g <;> cases g
      rfl
    · intro hc
      have hr2 : pc2.readRank = 2 := by
        rw [g3]
        simp [Pc.readRank]
        exact hc
      rcases g2 with rfl | rfl | rfl
      · simp [Pc.readRank] at hr2
      · simp [Pc.readRank] at hr2
      · exact g1
  rcases hw01 with ⟨rfl, rfl⟩ | ⟨rfl, rfl⟩
  · obtain ⟨e0, hs⟩ := hi.winner_over hmem h0 tr0 ho0
    have hlose : (1, Event.cas true) ∉
        (run false (initRaceSlot (Args.value v1) (Args.value v2) n k) sched).2 :=
      fun hx => absurd (huniq 1 hx) (by decide)
    have e1 := tr1.loser_over hlose ho1
    obtain ⟨f1, f2, f3⟩ := hi.initialized_facts hs
    exact ⟨hs, f3, v1, Or.inl ⟨rfl, e0, e1⟩, f1, f2, hreaders hs⟩
  · obtain ⟨e1, hs⟩ := hi.winner_over hmem h1 tr1 ho1
    have hlose : (0, Event.cas true) ∉
        (run false (initRaceSlot (Args.value v1) (Args.value v2) n k) sched).2 :=
      fun hx => absurd (huniq 0 hx) (by decide)
    have e0 := tr0.loser_over hlose ho0
    obtain ⟨f1, f2, f3⟩ := hi.initialized_facts hs
    exact ⟨hs, f3, v2, Or.inr ⟨rfl, e0, e1⟩, f1, f2, hreaders hs⟩

theorem double_init_race_witness :
    (run false (initRaceSlot (Args.value 1) (Args.value 2) 1 Counters.reset_counts)
        [1, 0, 1, 1, 1, 1]).1.m_state = State.Initialized ∧
    (run false (initRaceSlot (Args.value 1) (Args.value 2) 1 Counters.reset_counts)
        ([1, 0, 1, 1, 1, 1] ++ [2, 2])).1.threads[2]? = some (Pc.returned ⟨⟨2⟩⟩) := by
  have h := (double_init_race 1 2 1 Counters.reset_counts).1 [1, 0, 1, 1, 1, 1]
    (Pc.threw Error.AlreadyInitialized) (Pc.returned ⟨⟨2⟩⟩)
    (by decide) (by decide) (by decide) (by decide)
  exact ⟨h.1, by decide⟩

theorem initInstanceSlot_fresh (v : Int) (m : Nat) (k : Counters) :
    Fresh (initInstanceSlot v m k) := by
  refine ⟨rfl, rfl, ?_⟩
  intro pc hpc
  simp only [initInstanceSlot, List.mem_cons] at hpc
  rcases hpc with rfl | hpc
  · rfl
  · have := List.eq_of_mem_replicate hpc
    subst this
    rfl

/-- Under the auto policy a call of `instance()` that is over, on a slot reached
from a fresh one, has returned the stored payload. -/
theorem Inv.auto_reader_over {c0 : Config} {w : Nat} {a : Args} {r : Run} (h : Inv c0 w a r)
    {t : Nat} {pc : Pc} (hpc : r.1.threads[t]? = some pc) (htr : InstTrail true t r.2 pc)
    (hov : pc.over = true) :
    pc = Pc.returned (Instrumented.construct a) ∧ r.1.m_state = State.Initialized := by
  rcases htr with ⟨rfl, _⟩ | ⟨s, _, _, hs3⟩
  · simp [Pc.over] at hov
  · cases pc <;> simp [Pc.over] at hov <;> simp [Pc.afterLoad] at hs3
    · obtain ⟨g1, g2, g3, g4⟩ := h.returned hpc
      subst g3
      exact ⟨rfl, g1⟩
    · exact absurd hpc (h.not_undefined t)

/-- C11 as the code has it: let thread 0 call `init(v)` and threads `1..m`
call `instance()` on a fresh slot under the auto policy.  Along every
schedule at most one construction happens and no `instance()` throws.  Once
all calls are over exactly one construction has happened and `m_state` is
`Initialized`; when `init(v)` won the compare-exchange it is a value
construction with `v`, there is no default construction, and every call
returned the payload holding `v`; otherwise an `instance()` won it, the
construction is a default construction, `init(v)` threw `AlreadyInitialized`
and every `instance()` returned the default payload. -/
theorem init_vs_instance_race (v : Int) (m : Nat) (k : Counters) (sched : List Nat) :
    constructions (run true (initInstanceSlot v m k) sched).2 ≤ 1 ∧
    (∀ (j : Nat) e, 1 ≤ j →
      (run true (initInstanceSlot v m k) sched).1.threads[j]? ≠ some (Pc.threw e)) ∧
    ((∀ pc ∈ (run true (initInstanceSlot v m k) sched).1.threads, pc.over = true) →
      (run true (initInstanceSlot v m k) sched).1.m_state = State.Initialized ∧
      constructions (run true (initInstanceSlot v m k) sched).2 = 1 ∧
      (((0, Event.cas true) ∈ (run true (initInstanceSlot v m k) sched).2 ∧
        (run true (initInstanceSlot v m k) sched).1.storage
          = some (Instrumented.construct (Args.value v)) ∧
        (run true (initInstanceSlot v m k) sched).1.counts
          = { k with value_ctor := incr k.value_ctor } ∧
        ∀ (j : Nat) pc, (run true (initInstanceSlot v m k) sched).1.threads[j]? = some pc →
          pc = Pc.returned (Instrumented.construct (Args.value v))) ∨
       ((0, Event.cas true) ∉ (run true (initInstanceSlot v m k) sched).2 ∧
        (∃ j, 1 ≤ j ∧ (j, Event.cas true) ∈ (run true (initInstanceSlot v m k) sched).2) ∧
        (run true (initInstanceSlot v m k) sched).1.storage
          = some (Instrumented.construct Args.empty) ∧
        (run true (initInstanceSlot v m k) sched).1.counts
          = { k with default_ctor := incr k.default_ctor } ∧
        (run true (initInstanceSlot v m k) sched).1.threads[0]?
          = some (Pc.threw Error.AlreadyInitialized) ∧
        ∀ (j : Nat) pc, 1 ≤ j →
          (run true (initInstanceSlot v m k) sched).1.threads[j]? = some pc →
            pc = Pc.returned (Instrumented.construct Args.empty)))) := by
  have hf := initInstanceSlot_fresh v m k
  obtain ⟨w, a, hi⟩ := hf.run_inv true sched
  have hrun : runFrom true (initInstanceSlot v m k, []) sched =
      run true (initInstanceSlot v m k) sched := rfl
  have hlen : (run true (initInstanceSlot v m k) sched).1.threads.length = m + 1 := by
    have := length_runFrom true sched (initInstanceSlot v m k, [])
    simpa [initInstanceSlot] using this
  -- the trail of a reader
  have hreader : ∀ (j : Nat) pc, 1 ≤ j →
      (run true (initInstanceSlot v m k) sched).1.threads[j]? = some pc →
      InstTrail true j (run true (initInstanceSlot v m k) sched).2 pc := by
    intro j pc hj hpc
    have hjm : j < m + 1 := by
      have := lt_length_of_getElem? hpc
      rwa [hlen] at this
    have h0 : (initInstanceSlot v m k).threads[j]? = some Pc.instance_load := by
      obtain ⟨i, rfl⟩ : ∃ i, j = i + 1 := ⟨j - 1, by omega⟩
      simp only [initInstanceSlot, List.getElem?_cons_succ]
      exact getElem?_replicate_of_lt _ (by omega)
    obtain ⟨pc1, hp1, htr⟩ := InstTrail.kept_along sched
      (show ((initInstanceSlot v m k, []) : Run).1.threads[j]? = some Pc.instance_load from h0)
      (Or.inl ⟨rfl, by simp⟩)
    rw [hrun, hpc] at hp1
    cases hp1
    exact htr
  refine ⟨?_, ?_, ?_⟩
  · cases hs : (run true (initInstanceSlot v m k) sched).1.m_state with
    | Initialized => rw [(hi.initialized_facts hs).2.2]
    | Uninitialized =>
      generalize run true (initInstanceSlot v m k) sched = r at hi hs
      obtain ⟨⟨s, st, k1, ths⟩, log⟩ := r
      simp only at hs
      subst hs
      obtain ⟨h1, h2, h3, h4, h5⟩ := Inv.uninit_iff.1 hi
      simp [h4]
    | Initializing =>
      generalize run true (initInstanceSlot v m k) sched = r at hi hs
      obtain ⟨⟨s, st, k1, ths⟩, log⟩ := r
      simp only at hs
      subst hs
      obtain ⟨h1, h2, h3, h4, h5⟩ := Inv.initializing_iff.1 hi
      rcases h4 with ⟨_, _, _, g⟩ | ⟨_, _, _, g⟩ <;> simp [g]
  · intro j e hj he
    exact (hreader j _ hj he).not_threw e rfl
  · intro hall
    obtain ⟨p0, hp0, tr0⟩ := InitTrail.kept_init true (Args.value v) 0 sched
      (initInstanceSlot v m k, []) (Pc.init_cas (Args.value v))
      (by simp [initInstanceSlot]) (Or.inl ⟨rfl, by simp⟩)
    rw [hrun] at hp0 tr0
    have ho0 : p0.over = true := hall p0 (List.getElem?_mem hp0)
    have hne : (run true (initInstanceSlot v m k) sched).1.m_state ≠ State.Uninitialized := by
      rcases tr0 with ⟨rfl, _⟩ | ⟨hw, _⟩ | ⟨_, _, rfl⟩
      · simp [Pc.over] at ho0
      · exact (hi.winner hw).2.1
      · exact hi.threw_already hp0
    have hmem := hi.winner_mem hne
    obtain ⟨_, _, ho⟩ := hi.winner hmem
    have huniq : ∀ j, (j, Event.cas true) ∈ (run true (initInstanceSlot v m k) sched).2 →
        j = w := fun j hj => ((hi.winner hj).1).symm
    have hothers : ∀ (j : Nat) pc, 1 ≤ j →
        (run true (initInstanceSlot v m k) sched).1.threads[j]? = some pc →
        pc = Pc.returned (Instrumented.construct a) ∧
          (run true (initInstanceSlot v m k) sched).1.m_state = State.Initialized := by
      intro j pc hj hpc
      exact hi.auto_reader_over hpc (hreader j pc hj hpc) (hall pc (List.getElem?_mem hpc))
    have hw0 : (w = 0 ∧ a = Args.value v) ∨ (1 ≤ w ∧ a = Args.empty) := by
      rcases ho with ho | ⟨ho, ha⟩
      · match w, ho with
        | 0, ho =>
          simp [initInstanceSlot] at ho
          exact Or.inl ⟨rfl, ho.symm⟩
        | j + 1, ho =>
          simp only [initInstanceSlot, List.getElem?_cons_succ] at ho
          have := List.eq_of_mem_replicate (List.getElem?_mem ho)
          cases this
      · match w, ho with
        | 0, ho => simp [initInstanceSlot] at ho
        | j + 1, _ => exact Or.inr ⟨by omega, ha⟩
    rcases hw0 with ⟨rfl, rfl⟩ | ⟨hw1, rfl⟩
    · obtain ⟨e0, hs⟩ := hi.winner_over hmem hp0 tr0 ho0
      obtain ⟨f1, f2, f3⟩ := hi.initialized_facts hs
      refine ⟨hs, f3, Or.inl ⟨hmem, f1, f2, ?_⟩⟩
      intro j pc hpc
      rcases Nat.eq_zero_or_pos j with rfl | hj
      · rw [hp0] at hpc
        cases hpc
        exact e0
      · exact (hothers j pc hj hpc).1
    · have hlose : (0, Event.cas true) ∉ (run true (initInstanceSlot v m k) sched).2 := by
        intro hx
        have := huniq 0 hx
        omega
      have e0 := tr0.loser_over hlose ho0
      subst e0
      have hwex : ∃ pcw, (run true (initInstanceSlot v m k) sched).1.threads[w]? = some pcw := by
        have hin : (w, Event.cas true) ∈ (run true (initInstanceSlot v m k) sched).2 := hmem
        rcases ho with ho | ⟨ho, _⟩
        · have hlt := lt_length_of_getElem? ho
          have hlt2 : w < (run true (initInstanceSlot v m k) sched).1.threads.length := by
            rw [hlen]
            simpa [initInstanceSlot] using hlt
          exact ⟨_, List.getElem?_eq_getElem hlt2⟩
        · have hlt := lt_length_of_getElem? ho
          have hlt2 : w < (run true (initInstanceSlot v m k) sched).1.threads.length := by
            rw [hlen]
            simpa [initInstanceSlot] using hlt
          exact ⟨_, List.getElem?_eq_getElem hlt2⟩
      obtain ⟨pcw, hpcw⟩ := hwex
      have hs := (hothers w pcw hw1 hpcw).2
      obtain ⟨f1, f2, f3⟩ := hi.initialized_facts hs
      exact ⟨hs, f3, Or.inr ⟨hlose, ⟨w, hw1, hmem⟩, f1, f2, hp0,
        fun j pc hj hpc => (hothers j pc hj hpc).1⟩⟩

theorem init_vs_instance_race_witness :
    (0, Event.cas true) ∉ (run true (initInstanceSlot 7 2 Counters.reset_counts)
        [1, 1, 0, 2, 1, 1, 1, 1, 2, 2]).2 ∧
    (run true (initInstanceSlot 7 2 Counters.reset_counts)
        [1, 1, 0, 2, 1, 1, 1, 1, 2, 2]).1.m_state = State.Initialized ∧
    (run true (initInstanceSlot 7 2 Counters.reset_counts)
        [0, 1, 2, 0, 0, 0, 0, 1, 1, 2, 2]).1.threads =
      List.replicate 3 (Pc.returned ⟨⟨7⟩⟩) :=
  ⟨by decide,
    ((init_vs_instance_race 7 2 Counters.reset_counts
      [1, 1, 0, 2, 1, 1, 1, 1, 2, 2]).2.2 (by decide)).1,
    by decide⟩

/-- C11 as stated fails: with `v = 7` and one `instance()` caller, in the
schedule in which the `instance()` caller runs first all calls are over, the
one construction is a default construction, `init(7)` threw and the
`instance()` caller holds the default payload. -/
theorem init_vs_instance_race_counterexample :
    ¬ (∀ sched,
      (∀ pc ∈ (run true (initInstanceSlot 7 1 Counters.reset_counts) sched).1.threads,
        pc.over = true) →
      (run true (initInstanceSlot 7 1 Counters.reset_counts) sched).1.counts.value_ctor = 1 ∧
      (run true (initInstanceSlot 7 1 Counters.reset_counts) sched).1.counts.default_ctor = 0 ∧
      ∀ pc ∈ (run true (initInstanceSlot 7 1 Counters.reset_counts) sched).1.threads,
        pc = Pc.returned (Instrumented.construct (Args.value 7))) := by
  intro h
  have := h [1, 1, 1, 1, 1, 1, 0] (by decide)
  revert this
  decide

theorem Program.step_other (p p1 : Program) (t : Nat) (e : Event) (s : Subtype) (pc : Pc)
    (ht : p.threads[t]? = some (s, pc)) (h : p.step t = some (e, p1)) :
    (∀ key, key ≠ s.base → p1.m_state key = p.m_state key ∧ p1.storage key = p.storage key) ∧
    (∀ tag, tag ≠ s.tag → p1.counts tag = p.counts tag) ∧
    p1.threads.map Prod.fst = p.threads.map Prod.fst := by
  unfold Program.step at h
  rw [ht] at h
  simp only at h
  cases hst : Singleton.step s.policy (p.view s pc) 0 with
  | none => simp [hst] at h
  | some ec =>
    obtain ⟨e1, c⟩ := ec
    simp only [hst, Option.some.injEq, Prod.mk.injEq] at h
    obtain ⟨_, rfl⟩ := h
    refine ⟨?_, ?_, ?_⟩
    · intro key hk
      simp [Function.update, hk]
    · intro tag hk
      simp [Function.update, hk]
    · simp only
      apply List.ext_getElem?
      intro i
      simp only [List.getElem?_map, List.getElem?_set]
      by_cases hti : t = i
      · subst hti
        have hlt : t < p.threads.length := by
          by_contra hge
          rw [List.getElem?_eq_none (by omega)] at ht
          cases ht
        simp [hlt, ht]
      · simp [hti]

theorem Program.step_some (p p1 : Program) (t : Nat) (e : Event)
    (h : p.step t = some (e, p1)) : ∃ s pc, p.threads[t]? = some (s, pc) := by
  unfold Program.step at h
  cases ht : p.threads[t]? with
  | none => simp [ht] at h
  | some x => exact ⟨x.1, x.2, rfl⟩

theorem Program.run_other (key : Nat × Bool) (sched : List Nat) :
    ∀ (p : Program),
      (∀ t ∈ sched, ∀ s pc, p.threads[t]? = some (s, pc) → s.base ≠ key) →
      (p.run sched).m_state key = p.m_state key ∧ (p.run sched).storage key = p.storage key ∧
      (p.run sched).threads.map Prod.fst = p.threads.map Prod.fst := by
  induction sched with
  | nil => intro p _; exact ⟨rfl, rfl, rfl⟩
  | cons t ts ih =>
    intro p hp
    cases hstep : p.step t with
    | none =>
      have hrun : p.run (t :: ts) = p.run ts := by
        simp [Program.run, hstep]
      rw [hrun]
      exact ih p (fun u hu => hp u (List.mem_cons_of_mem _ hu))
    | some ep =>
      obtain ⟨e, p1⟩ := ep
      have hrun : p.run (t :: ts) = p1.run ts := by
        simp [Program.run, hstep]
      rw [hrun]
      obtain ⟨s, pc, ht⟩ := p.step_some p1 t e hstep
      obtain ⟨g1, g2, g3⟩ := p.step_other p1 t e s pc ht hstep
      have hne : key ≠ s.base := fun h => hp t (List.mem_cons_self _ _) s pc ht h.symm
      have hp1 : ∀ u ∈ ts, ∀ s1 pc1, p1.threads[u]? = some (s1, pc1) → s1.base ≠ key := by
        intro u hu s1 pc1 h1
        have hm : (p1.threads.map Prod.fst)[u]? = some s1 := by
          simp [List.getElem?_map, h1]
        rw [g3] at hm
        simp only [List.getElem?_map, Option.map_eq_some'] at hm
        obtain ⟨x, hx, hx1⟩ := hm
        obtain ⟨s2, pc2⟩ := x
        simp only at hx1
        subst hx1
        exact hp u (List.mem_cons_of_mem _ hu) s2 pc2 hx
      obtain ⟨k1, k2, k3⟩ := ih p1 hp1
      exact ⟨by rw [k1, (g1 key hne).1], by rw [k2, (g1 key hne).2], by rw [k3, g3]⟩

/-- C15 as the code has it: the slot belongs to the specialization
`Singleton<T, DefaultOnInstance>`.  For subtypes `A` and `B` that derive from
different specializations, a step of any call made through `A` leaves the
`m_state` and the storage observed through `B` unchanged, and the other way
round; so does every schedule of steps of calls made through subtypes of
other specializations than that of `B`. -/
theorem slots_independent_per_specialization (A B : Subtype) (hAB : A.base ≠ B.base)
    (p : Program) :
    (∀ t pc e p1, p.threads[t]? = some (A, pc) → p.step t = some (e, p1) →
      p1.m_state B.base = p.m_state B.base ∧ p1.storage B.base = p.storage B.base) ∧
    (∀ t pc e p1, p.threads[t]? = some (B, pc) → p.step t = some (e, p1) →
      p1.m_state A.base = p.m_state A.base ∧ p1.storage A.base = p.storage A.base) ∧
    (∀ sched, (∀ t ∈ sched, ∀ s pc, p.threads[t]? = some (s, pc) → s.base ≠ B.base) →
      (p.run sched).m_state B.base = p.m_state B.base ∧
      (p.run sched).storage B.base = p.storage B.base) := by
  refine ⟨?_, ?_, ?_⟩
  · intro t pc e p1 ht hstep
    exact (p.step_other p1 t e A pc ht hstep).1 B.base (Ne.symm hAB)
  · intro t pc e p1 ht hstep
    exact (p.step_other p1 t e B pc ht hstep).1 A.base hAB
  · intro sched hs
    obtain ⟨h1, h2, _⟩ := Program.run_other B.base sched p hs
    exact ⟨h1, h2⟩

theorem slots_independent_per_specialization_witness :
    ((Program.fresh [(⟨0, 0, false⟩, Pc.init_cas (Args.value 5)),
        (⟨1, 1, true⟩, Pc.instance_load)]).run [0, 0, 0, 0, 0]).m_state (1, true)
      = State.Uninitialized ∧
    ((Program.fresh [(⟨0, 0, false⟩, Pc.init_cas (Args.value 5)),
        (⟨1, 1, true⟩, Pc.instance_load)]).run [0, 0, 0, 0, 0, 1, 1, 1, 1, 1, 1]).threads
      = [(⟨0, 0, false⟩, Pc.returned ⟨⟨5⟩⟩), (⟨1, 1, true⟩, Pc.returned ⟨⟨0⟩⟩)] ∧
    ((Program.fresh [(⟨0, 0, false⟩, Pc.init_cas (Args.value 5)),
        (⟨1, 1, true⟩, Pc.instance_load)]).run [0, 0, 0, 0, 0, 1, 1, 1, 1, 1, 1]).counts 0
      = { Counters.reset_counts with value_ctor := 1 } ∧
    ((Program.fresh [(⟨0, 0, false⟩, Pc.init_cas (Args.value 5)),
        (⟨1, 1, true⟩, Pc.instance_load)]).run [0, 0, 0, 0, 0, 1, 1, 1, 1, 1, 1]).counts 1
      = { Counters.reset_counts with default_ctor := 1 } := by
  refine ⟨?_, by decide, by decide, by decide⟩
  have h := (slots_independent_per_specialization ⟨0, 0, false⟩ ⟨1, 1, true⟩ (by decide)
    (Program.fresh [(⟨0, 0, false⟩, Pc.init_cas (Args.value 5)),
      (⟨1, 1, true⟩, Pc.instance_load)])).2.2 [0, 0, 0, 0, 0]
    (by
      intro t ht s pc hs
      simp only [List.mem_cons, List.mem_singleton, or_self, List.not_mem_nil, or_false] at ht
      subst ht
      simp only [Program.fresh, List.getElem?_cons_zero, Option.some.injEq, Prod.mk.injEq] at hs
      obtain ⟨rfl, _⟩ := hs
      decide)
  exact h.1

/-- C15 as stated fails: two distinct subtypes that derive from the same
specialization share its slot.  After the first step of `A::init(5)` the state
observed through `B` has changed. -/
theorem slots_per_subtype_counterexample :
    ¬ (∀ (A B : Subtype), A ≠ B → ∀ (p : Program) t pc e p1,
      p.threads[t]? = some (A, pc) → p.step t = some (e, p1) →
      p1.m_state B.base = p.m_state B.base ∧ p1.storage B.base = p.storage B.base) := by
  intro h
  have hstep : (Program.fresh [(⟨0, 0, true⟩, Pc.init_cas (Args.value 5))]).step 0 =
      some (Event.cas true,
        { m_state := Function.update (fun _ => State.Uninitialized) (0, true) State.Initializing,
          storage := Function.update (fun _ => none) (0, true) none,
          counts := Function.update (fun _ => Counters.reset_counts) 0 Counters.reset_counts,
          threads := [(⟨0, 0, true⟩, Pc.unsafe_emplace (Args.value 5))] }) := by
    rfl
  have := (h ⟨0, 0, true⟩ ⟨1, 0, true⟩ (by decide)
    (Program.fresh [(⟨0, 0, true⟩, Pc.init_cas (Args.value 5))]) 0
    (Pc.init_cas (Args.value 5)) _ _ rfl hstep).1
  revert this
  decide

theorem step_pending {doi : Bool} {c c1 : Config} {t : Nat} {e : Event}
    (hs : c.m_state = State.Initializing)
    (hall : ∀ (j : Nat) (pc : Pc), c.threads[j]? = some pc → pc.pending = true)
    (h : step doi c t = some (e, c1)) :
    c1.m_state = State.Initializing ∧ c1.storage = c.storage ∧
    ∃ pc1, pc1.pending = true ∧ c1.threads = c.threads.set t pc1 ∧
      (c.threads[t]? = some Pc.instance_load → pc1 = Pc.instance_wait) := by
  cases hpc : c.threads[t]? with
  | none => simp [step, hpc] at h
  | some pc =>
    have hp := hall t pc hpc
    cases pc <;> simp [Pc.pending] at hp <;>
      simp [step, hpc, hs, trySetInitializing, Config.goto] at h <;>
      obtain ⟨rfl, rfl⟩ := h <;>
      refine ⟨rfl, rfl, _, ?_, rfl, ?_⟩ <;> simp [Pc.pending]

theorem step_wait_blocked (doi : Bool) {c : Config} {t : Nat}
    (hs : c.m_state = State.Initializing) (ht : c.threads[t]? = some Pc.instance_wait) :
    step doi c t = none := by
  simp [step, ht, hs]

theorem Reentrant.Stuck.step_stuck {st : Option Instrumented} {w : Nat} {a : Args}
    {x : Reentrant} (doi : Bool) (h : Reentrant.Stuck st w a x) (t : Nat) :
    (x.step doi t = none ∨ ∃ x1, x.step doi t = some x1 ∧ Reentrant.Stuck st w a x1) ∧
    (x.config.threads[w]? = some Pc.instance_wait → t = w → x.step doi t = none) ∧
    (t = w → x.config.threads[w]? = some Pc.instance_load →
      ∃ x1, x.step doi t = some x1 ∧ x1.config.threads[w]? = some Pc.instance_wait) ∧
    (x.config.threads[w]? = some Pc.instance_wait → ∀ x1, x.step doi t = some x1 →
      x1.config.threads[w]? = some Pc.instance_wait) := by
  obtain ⟨hf, hs, hst, hall, hw⟩ := h
  obtain ⟨c, fr⟩ := x
  simp only at hf hs hst hall hw
  subst hf
  cases hstep : Singleton.step doi c t with
  | none =>
    have hnone : Reentrant.step doi ⟨c, some (w, a)⟩ t = none := by
      unfold Reentrant.step
      simp only [hstep]
      cases hpc : c.threads[t]? with
      | none => rfl
      | some pc =>
        have hp := hall t pc hpc
        cases pc <;> simp [Pc.pending] at hp <;> rfl
    refine ⟨Or.inl hnone, fun _ _ => hnone, ?_, ?_⟩
    · rintro rfl hl
      simp [Singleton.step, hl, hs] at hstep
    · intro _ x1 hx1
      rw [hnone] at hx1
      cases hx1
  | some ec =>
    obtain ⟨e, c1⟩ := ec
    have hsome : Reentrant.step doi ⟨c, some (w, a)⟩ t = some ⟨c1, some (w, a)⟩ := by
      unfold Reentrant.step
      simp only [hstep]
    obtain ⟨g1, g2, pc1, g3, g4, g5⟩ := step_pending hs hall hstep
    have hw1 : c1.threads[w]? = some Pc.instance_load ∨ c1.threads[w]? = some Pc.instance_wait := by
      rw [g4]
      by_cases htw : t = w
      · subst htw
        rcases hw with hw | hw
        · right
          rw [getElem?_set_self_of _ hw, g5 hw]
        · rw [step_wait_blocked doi hs hw] at hstep
          cases hstep
      · rw [getElem?_set_of_ne _ (Ne.symm htw)]
        exact hw
    refine ⟨Or.inr ⟨_, hsome, rfl, g1, by rw [g2, hst], ?_, hw1⟩, ?_, ?_, ?_⟩
    · rw [g4]
      exact getElem?_set_all hall g3
    · rintro hwt rfl
      rw [step_wait_blocked doi hs hwt] at hstep
      cases hstep
    · rintro rfl hl
      refine ⟨_, hsome, ?_⟩
      simp only [g4]
      rw [getElem?_set_self_of _ hl, g5 hl]
    · intro hwt x1 hx1
      rw [hsome] at hx1
      cases hx1
      simp only [g4]
      by_cases htw : t = w
      · subst htw
        rw [step_wait_blocked doi hs hwt] at hstep
        cases hstep
      · rw [getElem?_set_of_ne _ (Ne.symm htw)]
        exact hwt

theorem Reentrant.Stuck.run_stuck {st : Option Instrumented} {w : Nat} {a : Args} (doi : Bool)
    (sched : List Nat) :
    ∀ {x : Reentrant}, Reentrant.Stuck st w a x →
      Reentrant.Stuck st w a (x.run doi sched) ∧
      (x.config.threads[w]? = some Pc.instance_wait ∨ w ∈ sched →
        (x.run doi sched).config.threads[w]? = some Pc.instance_wait) := by
  induction sched with
  | nil =>
    intro x h
    refine ⟨h, ?_⟩
    rintro (hw | hw)
    · exact hw
    · simp at hw
  | cons t ts ih =>
    intro x h
    obtain ⟨k1, k2, k3, k4⟩ := h.step_stuck doi t
    cases hstep : x.step doi t with
    | none =>
      have hrun : x.run doi (t :: ts) = x.run doi ts := by
        simp [Reentrant.run, hstep]
      rw [hrun]
      obtain ⟨i1, i2⟩ := ih h
      refine ⟨i1, ?_⟩
      rintro (hw | hw)
      · exact i2 (Or.inl hw)
      · simp only [List.mem_cons] at hw
        rcases hw with rfl | hw
        · rcases h.2.2.2.2 with hl | hl
          · obtain ⟨x1, hx1, _⟩ := k3 rfl hl
            rw [hstep] at hx1
            cases hx1
          · exact i2 (Or.inl hl)
        · exact i2 (Or.inr hw)
    | some x1 =>
      have hrun : x.run doi (t :: ts) = x1.run doi ts := by
        simp [Reentrant.run, hstep]
      rw [hrun]
      have hx1 : Reentrant.Stuck st w a x1 := by
        rcases k1 with k | ⟨y, hy, hs⟩
        · rw [hstep] at k
          cases k
        · rw [hstep] at hy
          cases hy
          exact hs
      obtain ⟨i1, i2⟩ := ih hx1
      refine ⟨i1, ?_⟩
      rintro (hw | hw)
      · exact i2 (Or.inl (k4 hw x1 hstep))
      · simp only [List.mem_cons] at hw
        rcases hw with rfl | hw
        · rcases h.2.2.2.2 with hl | hl
          · obtain ⟨y, hy, hyw⟩ := k3 rfl hl
            rw [hstep] at hy
            cases hy
            exact i2 (Or.inl hyw)
          · exact i2 (Or.inl (k4 hl x1 hstep))
        · exact i2 (Or.inr hw)

/-- C17: let `m_state` be `Initializing`, let thread `w` be the winner of the
compare-exchange, standing at `emplace` in `init_UNSAFE`, let every other
thread stand where a loser can stand, and let the constructor of `w` call
`instance()` on the same slot.  Under either policy the nested call loads
`Initializing` and comes to the wait without throwing, and there it has no
step.  Along every schedule `m_state` stays `Initializing`, the storage stays
as it was, the nested call has neither returned nor thrown, and the frame of
`w` never resumes.  With no other thread, no thread has a step at all. -/
theorem reentrant_instance_deadlocks (doi : Bool) (c : Config) (w : Nat) (a : Args)
    (hs : c.m_state = State.Initializing)
    (hw : c.threads[w]? = some (Pc.unsafe_emplace a))
    (hothers : ∀ (j : Nat) (pc : Pc), j ≠ w → c.threads[j]? = some pc → pc.pending = true) :
    Reentrant.enter c w = some ⟨c.goto w Pc.instance_load, some (w, a)⟩ ∧
    Reentrant.step doi ⟨c.goto w Pc.instance_load, some (w, a)⟩ w
      = some ⟨c.goto w Pc.instance_wait, some (w, a)⟩ ∧
    Reentrant.step doi ⟨c.goto w Pc.instance_wait, some (w, a)⟩ w = none ∧
    (∀ sched,
      (Reentrant.run doi ⟨c.goto w Pc.instance_load, some (w, a)⟩ sched).config.m_state
        = State.Initializing ∧
      (Reentrant.run doi ⟨c.goto w Pc.instance_load, some (w, a)⟩ sched).config.storage
        = c.storage ∧
      (Reentrant.run doi ⟨c.goto w Pc.instance_load, some (w, a)⟩ sched).frame
        = some (w, a) ∧
      ((Reentrant.run doi ⟨c.goto w Pc.instance_load, some (w, a)⟩ sched).config.threads[w]?
          = some Pc.instance_load ∨
        (Reentrant.run doi ⟨c.goto w Pc.instance_load, some (w, a)⟩ sched).config.threads[w]?
          = some Pc.instance_wait) ∧
      (w ∈ sched →
        (Reentrant.run doi ⟨c.goto w Pc.instance_load, some (w, a)⟩ sched).config.threads[w]?
          = some Pc.instance_wait)) ∧
    (c.threads.length = 1 →
      ∀ t, Reentrant.step doi ⟨c.goto w Pc.instance_wait, some (w, a)⟩ t = none) := by
  have hlt := lt_length_of_getElem? hw
  have hstuck : ∀ pc, pc = Pc.instance_load ∨ pc = Pc.instance_wait →
      Reentrant.Stuck c.storage w a ⟨c.goto w pc, some (w, a)⟩ := by
    intro pc hpc
    refine ⟨rfl, hs, rfl, ?_, ?_⟩
    · intro j pc1 hj
      simp only [Config.goto] at hj
      by_cases hjw : j = w
      · subst hjw
        rw [getElem?_set_self_of _ hw] at hj
        cases hj
        rcases hpc with rfl | rfl <;> rfl
      · rw [getElem?_set_of_ne _ hjw] at hj
        exact hothers j pc1 hjw hj
    · simp only [Config.goto]
      rw [getElem?_set_self_of _ hw]
      rcases hpc with rfl | rfl
      · exact Or.inl rfl
      · exact Or.inr rfl
  have hwait : (c.goto w Pc.instance_wait).threads[w]? = some Pc.instance_wait := by
    simp only [Config.goto]
    exact getElem?_set_self_of _ hw
  have hblocked : Reentrant.step doi ⟨c.goto w Pc.instance_wait, some (w, a)⟩ w = none :=
    ((hstuck _ (Or.inr rfl)).step_stuck doi w).2.1 hwait rfl
  refine ⟨?_, ?_, hblocked, ?_, ?_⟩
  · simp [Reentrant.enter, hw]
  · have hload : (c.goto w Pc.instance_load).threads[w]? = some Pc.instance_load := by
      simp only [Config.goto]
      exact getElem?_set_self_of _ hw
    have hst : Singleton.step doi (c.goto w Pc.instance_load) w =
        some (Event.load State.Initializing, c.goto w Pc.instance_wait) := by
      simp [Singleton.step, hload, Config.goto, hs, hlt]
    simp [Reentrant.step, hst]
  · intro sched
    obtain ⟨⟨g1, g2, g3, g4, g5⟩, g6⟩ :=
      Reentrant.Stuck.run_stuck doi sched (hstuck Pc.instance_load (Or.inl rfl))
    exact ⟨g2, g3, g1, g5, fun hm => g6 (Or.inr hm)⟩
  · intro hlen t
    by_cases htw : t = w
    · subst htw
      exact hblocked
    · have hnone : (c.goto w Pc.instance_wait).threads[t]? = none := by
        simp only [Config.goto]
        rw [getElem?_set_of_ne _ htw]
        apply List.getElem?_eq_none
        omega
      simp [Reentrant.step, Singleton.step, hnone]

theorem reentrant_instance_deadlocks_witness :
    (run false (freshSlot [Pc.init_cas (Args.value 5)]) [0]).1 =
      ⟨State.Initializing, none, Counters.reset_counts, [Pc.unsafe_emplace (Args.value 5)]⟩ ∧
    Reentrant.step false
      ⟨Config.goto ⟨State.Initializing, none, Counters.reset_counts,
        [Pc.unsafe_emplace (Args.value 5)]⟩ 0 Pc.instance_wait, some (0, Args.value 5)⟩ 0
      = none :=
  ⟨by decide,
    (reentrant_instance_deadlocks false
      ⟨State.Initializing, none, Counters.reset_counts, [Pc.unsafe_emplace (Args.value 5)]⟩
      0 (Args.value 5) rfl rfl
      (by
        intro j pc hj hpc
        match j, hj, hpc with
        | 0, hj, _ => exact absurd rfl hj
        | i + 1, _, hpc => simp at hpc)).2.2.1⟩

end Singleton
